import Mathlib

open scoped List

/-!
Verification development for the multi-project-diff repository.

The definitions in this file are shallow embeddings of the TypeScript
sources of the repository:

* the counts-only diff engine of the worker (functions normalizeEol,
  maybeNormalizeWhitespace, splitToLines, trimCommonPrefixSuffix,
  tokenizePair, myersEditDistance, computeDiffCounts, compareFile);
* the LRU result cache of src/diffCache.ts (makeCacheKey, makeReversedKey,
  DiffCache.get, DiffCache.set, DiffCache.evictIfNeeded);
* the post-processing and publication logic of the run coordinator
  (runDiff) in the extension entry point.

Texts are embedded as lists of characters, JavaScript numbers holding
line counts as integers, file modification times as integers, and the
file system as a function from paths to optional contents.  JavaScript
while/for loops are embedded as fuel-indexed structural recursions whose
fuel is the exact bound of the source loop, so every definition is
executable by kernel reduction.  Int32Array cells hold x-coordinates
bounded by the list lengths, so plain natural numbers model them
faithfully (no wrap-around is reachable for any input expressible here).
-/

/-! ## Data model (types.ts) -/

/-- DiffCounts from types.ts: added and removed line counts.  The source
stores JavaScript numbers; the counts produced by the engine are proven
non-negative below, but the type itself is embedded with integers so that
non-negativity remains a statement, not a typing artifact. -/
structure DiffCounts where
  added : Int
  removed : Int
deriving DecidableEq, Repr

/-- DiffResult from types.ts (counts-only variant used by the worker and
the cache). -/
structure DiffResult where
  projectName : List Char
  diffLineCount : Int
  diffDetail : DiffCounts
  compareFilePath : List Char
  fileExists : Bool
  compareWorkspaceFilePath : List Char
deriving DecidableEq, Repr

/-! ## Diff engine (diffWorker, counts-only variant) -/

/-- Embedding of normalizeEol: the global regex replacing CRLF, lone CR
and the Unicode line and paragraph separators by LF.  The alternation
CR-LF-optional matches CRLF greedily, so a CRLF pair becomes a single
LF. -/
def normalizeEol : List Char → List Char
  | [] => []
  | '\r' :: '\n' :: rest => '\n' :: normalizeEol rest
  | '\r' :: rest => '\n' :: normalizeEol rest
  | c :: rest =>
    (if c.val = 0x2028 ∨ c.val = 0x2029 then '\n' else c) :: normalizeEol rest

/-- Character class of the JavaScript regular-expression escape for
whitespace (ECMA-262 WhiteSpace and LineTerminator code points). -/
def jsWs (c : Char) : Bool :=
  c.val = 9 ∨ c.val = 10 ∨ c.val = 11 ∨ c.val = 12 ∨ c.val = 13 ∨
  c.val = 32 ∨ c.val = 0xa0 ∨ c.val = 0x1680 ∨
  (0x2000 ≤ c.val ∧ c.val ≤ 0x200a) ∨ c.val = 0x2028 ∨ c.val = 0x2029 ∨
  c.val = 0x202f ∨ c.val = 0x205f ∨ c.val = 0x3000 ∨ c.val = 0xfeff

/-- Space character (code point 32). -/
def spCh : Char := Char.ofNat 32

/-- Embedding of the global replacement of every whitespace run by a
single space.  The boolean argument records whether the previous
character belonged to a whitespace run, exactly as the regex engine
advances over a maximal match of one-or-more whitespace. -/
def collapseAux : Bool → List Char → List Char
  | _, [] => []
  | inRun, c :: rest =>
    if jsWs c then
      if inRun then collapseAux true rest else spCh :: collapseAux true rest
    else c :: collapseAux false rest

/-- Replacement of whitespace runs by single spaces, starting outside a
run. -/
def collapseWs (l : List Char) : List Char := collapseAux false l

/-- Removal of leading whitespace (the front half of String.trim). -/
def trimStart (l : List Char) : List Char := l.dropWhile jsWs

/-- Removal of trailing whitespace (the back half of String.trim). -/
def trimEnd (l : List Char) : List Char := (l.reverse.dropWhile jsWs).reverse

/-- Embedding of String.trim: whitespace removed from both ends. -/
def trimWs (l : List Char) : List Char := trimEnd (trimStart l)

/-- Embedding of maybeNormalizeWhitespace: identity unless the
whitespace-insensitive flag is set, in which case every whitespace run is
collapsed to one space and the ends are trimmed. -/
def maybeNormalizeWhitespace (line : List Char) (ignoreWhiteSpace : Bool) : List Char :=
  if !ignoreWhiteSpace then line else trimWs (collapseWs line)

/-- Splitting on the LF character, keeping empty pieces, as
String.split with a one-character separator does. -/
def splitNl : List Char → List (List Char)
  | [] => [[]]
  | '\n' :: rest => [] :: splitNl rest
  | c :: rest =>
    match splitNl rest with
    | [] => [[c]]
    | l :: ls => (c :: l) :: ls

/-- Embedding of splitToLines: the empty text yields no lines at all,
any other text is split on LF. -/
def splitToLines (text : List Char) : List (List Char) :=
  if text.length = 0 then [] else splitNl text

/-- Length of the common leading run of equal lines; embeds the first
while loop of trimCommonPrefixSuffix, which advances both indices in
lockstep while the elements agree. -/
def commonPrefixLen : List (List Char) → List (List Char) → Nat
  | x :: xs, y :: ys => if x = y then commonPrefixLen xs ys + 1 else 0
  | _, _ => 0

/-- Embedding of the second while loop of trimCommonPrefixSuffix: both
end indices are decremented while they have not crossed the start indices
and the lines at the ends agree.  The indices live in the integers
because they stop at start minus one; out-of-range reads cannot occur
because the loop guard checks the bounds first.  The fuel argument is the
exact iteration bound of the source loop. -/
def suffixStop (a b : List (List Char)) (aStart bStart : Nat) :
    Nat → Int → Int → Int × Int
  | 0, aEnd, bEnd => (aEnd, bEnd)
  | fuel + 1, aEnd, bEnd =>
    if (aStart : Int) ≤ aEnd ∧ (bStart : Int) ≤ bEnd ∧
        a.getD aEnd.toNat [] = b.getD bEnd.toNat [] then
      suffixStop a b aStart bStart fuel (aEnd - 1) (bEnd - 1)
    else (aEnd, bEnd)

/-- Embedding of trimCommonPrefixSuffix, returning the two slices that
remain between the trimmed common leading and trailing runs (the source
returns the four indices and the caller slices; the slicing is composed
here). -/
def trimmedSlices (aNorm bNorm : List (List Char)) :
    List (List Char) × List (List Char) :=
  let s := commonPrefixLen aNorm bNorm
  let e := suffixStop aNorm bNorm s s aNorm.length
    ((aNorm.length : Int) - 1) ((bNorm.length : Int) - 1)
  ((aNorm.take (e.1 + 1).toNat).drop s, (bNorm.take (e.2 + 1).toNat).drop s)

/-- Lookup in the shared tokenization dictionary, an association list in
insertion order; models Map.get keyed by line content. -/
def dictLookup : List (List Char × Int) → List Char → Option Int
  | [], _ => none
  | (t, i) :: rest, s => if t = s then some i else dictLookup rest s

/-- Embedding of the tokenization loop body of tokenizePair: each line is
mapped to the identifier the dictionary holds for it, new lines being
assigned the next fresh identifier. -/
def tokenizeList (dict : List (List Char × Int)) (nextId : Int) :
    List (List Char) → List (List Char × Int) × Int × List Int
  | [] => (dict, nextId, [])
  | s :: rest =>
    match dictLookup dict s with
    | some id =>
      let r := tokenizeList dict nextId rest
      (r.1, r.2.1, id :: r.2.2)
    | none =>
      let r := tokenizeList (dict ++ [(s, nextId)]) (nextId + 1) rest
      (r.1, r.2.1, nextId :: r.2.2)

/-- Embedding of tokenizePair: a shared dictionary assigns identifiers
starting from one, first across the left lines and then across the right
lines. -/
def tokenizePair (aLines bLines : List (List Char)) : List Int × List Int :=
  let ra := tokenizeList [] 1 aLines
  let rb := tokenizeList ra.1 ra.2.1 bLines
  (ra.2.2, rb.2.2)

/-- Embedding of the snake loop of myersEditDistance: starting from
coordinates x and y, advance diagonally while both are in range and the
tokens agree.  A negative y makes the comparison fail in the source
(an out-of-range typed-array read yields undefined), so the guard also
requires y to be non-negative.  The fuel is the length of the first
sequence, an upper bound on the number of diagonal steps. -/
def slide (a b : List Int) : Nat → Nat → Int → Nat
  | 0, x, _ => x
  | fuel + 1, x, y =>
    if x < a.length ∧ 0 ≤ y ∧ y < (b.length : Int) ∧
        a.getD x 0 = b.getD y.toNat 0 then
      slide a b fuel (x + 1) (y + 1)
    else x

/-- Body of the inner diagonal loop of myersEditDistance for diagonal
number j of iteration d, that is diagonal index k = 2 j - d.  The
frontier array v is embedded as a total function from the diagonal index
k to the stored x-coordinate (the source indexes the array at offset
plus k; the offset is absorbed into the index).  The start x-coordinate
is taken from the better neighbouring diagonal of the previous
iteration, the snake slides from there, the frontier is updated, and the
boolean reports whether the end point was reached, in which case the
source returns d immediately. -/
def innerKStep (a b : List Int) (d : Nat) (v : Int → Nat) (j : Nat) :
    (Int → Nat) × Bool :=
  let k : Int := -(d : Int) + 2 * (j : Int)
  let x0 : Nat :=
    if k = -(d : Int) ∨ (k ≠ (d : Int) ∧ v (k - 1) < v (k + 1)) then
      v (k + 1)
    else v (k - 1) + 1
  let xf := slide a b a.length x0 ((x0 : Int) - k)
  (fun k' => if k' = k then xf else v k',
    decide (a.length ≤ xf ∧ (b.length : Int) ≤ (xf : Int) - k))

/-- Inner diagonal loop of myersEditDistance: runs innerKStep over
j, j + 1, ... while steps remain, stopping early when the end point is
reached. -/
def innerK (a b : List Int) (d : Nat) :
    (Int → Nat) → Nat → Nat → (Int → Nat) × Bool
  | v, _, 0 => (v, false)
  | v, j, steps + 1 =>
    let r := innerKStep a b d v j
    if r.2 then (r.1, true) else innerK a b d r.1 (j + 1) steps

/-- Embedding of the outer loop of myersEditDistance over the edit count
d; the fuel is the number of remaining iterations (the source iterates d
from zero to n plus m inclusive).  When the loop finishes without
reaching the end point the source returns n plus m. -/
def myersMain (a b : List Int) : Nat → Nat → (Int → Nat) → Nat
  | 0, _, _ => a.length + b.length
  | fuel + 1, d, v =>
    let r := innerK a b d v 0 (d + 1)
    if r.2 then d else myersMain a b fuel (d + 1) r.1

/-- Embedding of myersEditDistance on integer token sequences.  The
frontier is zero-initialised (Int32Array allocation), which subsumes the
assignment of zero at offset plus one in the source. -/
def myersEditDistance (a b : List Int) : Nat :=
  if a.length = 0 then b.length
  else if b.length = 0 then a.length
  else myersMain a b (a.length + b.length + 1) 0 (fun _ => 0)

/-- Line preparation of computeDiffCounts: normalize line endings, split
into lines, optionally normalize whitespace per line. -/
def normedLines (text : List Char) (ignoreWhiteSpace : Bool) :
    List (List Char) :=
  (splitToLines (normalizeEol text)).map
    (fun s => maybeNormalizeWhitespace s ignoreWhiteSpace)

/-- Embedding of computeDiffCounts: prepare the lines of both sides,
trim common leading and trailing line runs, tokenize the remaining
slices and derive the counts from the Myers edit distance.  The source
computes the LCS length with an arithmetic right shift by one, embedded
as integer division by two (the operand is proven non-negative
below). -/
def computeDiffCounts (baseText compareText : List Char) (ignoreWhiteSpace : Bool) :
    DiffCounts :=
  let aNorm := normedLines baseText ignoreWhiteSpace
  let bNorm := normedLines compareText ignoreWhiteSpace
  let sl := trimmedSlices aNorm bNorm
  let n := sl.1.length
  let m := sl.2.length
  if n = 0 ∧ m = 0 then ⟨0, 0⟩
  else
    let tk := tokenizePair sl.1 sl.2
    let d := myersEditDistance tk.1 tk.2
    let lcs : Int := ((n : Int) + (m : Int) - (d : Int)) / 2
    ⟨(m : Int) - lcs, (n : Int) - lcs⟩

/-! ## Longest common subsequence and edit-graph reachability

The specification describes myersEditDistance as the minimal number of
insertions plus deletions transforming one sequence into the other,
equivalently the total length minus twice the longest-common-subsequence
length.  Both notions are formalised here: lcsLen is the textbook
recursion, and Seg is reachability in the Myers edit graph, where a
horizontal move deletes one left token, a vertical move inserts one right
token and a free diagonal move consumes one matching token on each side.
An edit script of cost d transforming a into b is exactly a path of cost
d from the origin to the terminal corner of the graph. -/

/-- Classic longest-common-subsequence length recursion. -/
def lcsLen {α : Type} [DecidableEq α] : List α → List α → Nat
  | [], _ => 0
  | _ :: _, [] => 0
  | x :: xs, y :: ys =>
    if x = y then lcsLen xs ys + 1
    else max (lcsLen (x :: xs) ys) (lcsLen xs (y :: ys))
termination_by a b => a.length + b.length

/-- Edit-graph path segments: Seg a b x0 y0 d x y holds when the point
with coordinates x, y is reachable from the point x0, y0 using exactly d
horizontal or vertical moves (deletions of left tokens and insertions of
right tokens) plus any number of free diagonal moves over matching
tokens. -/
inductive Seg (a b : List Int) (x₀ y₀ : Nat) : Nat → Nat → Nat → Prop where
  | base : Seg a b x₀ y₀ 0 x₀ y₀
  | diag {d x y} : Seg a b x₀ y₀ d x y → x < a.length → y < b.length →
      a.getD x 0 = b.getD y 0 → Seg a b x₀ y₀ d (x + 1) (y + 1)
  | del {d x y} : Seg a b x₀ y₀ d x y → Seg a b x₀ y₀ (d + 1) (x + 1) y
  | ins {d x y} : Seg a b x₀ y₀ d x y → Seg a b x₀ y₀ (d + 1) x (y + 1)

/-- Reach a b d x y: the point x, y is reachable from the origin of the
edit graph with exactly d non-diagonal moves; for x, y the two sequence
lengths this says a can be edited into b by d insertions plus
deletions. -/
def Reach (a b : List Int) (d x y : Nat) : Prop := Seg a b 0 0 d x y

/-- Frontier invariant of the Myers search: the value xv stored for
diagonal k after iteration d is reachable with exactly d edits and is the
furthest point on that diagonal reachable with d edits. -/
def InvAt (a b : List Int) (d : Nat) (k : Int) (xv : Nat) : Prop :=
  k ≤ (xv : Int) ∧ Reach a b d xv ((xv : Int) - k).toNat ∧
  ∀ x y : Nat, (x : Int) - y = k → Reach a b d x y → x ≤ xv

/-! ## Word decomposition (specification-side model for the
whitespace-insensitive mode)

Modelled from the spec: the specification describes the
whitespace-insensitive mode by saying that lines differing only in
interior whitespace runs or in leading and trailing whitespace count as
unchanged.  Two lines differ only in whitespace exactly when they carry
the same sequence of maximal non-whitespace runs (words).  wordsOf
computes that sequence; it follows the spec wording and is deliberately
independent of the collapse-and-trim normalization of the source, which
is proven below to be determined by it. -/

/-- Fuelled decomposition of a character list into its maximal
non-whitespace runs; the fuel strictly exceeds the list length so it
never runs out. -/
def wordsOfF : Nat → List Char → List (List Char)
  | 0, _ => []
  | _, [] => []
  | fuel + 1, c :: rest =>
    if jsWs c then wordsOfF fuel ((c :: rest).dropWhile jsWs)
    else ((c :: rest).takeWhile (fun d => !jsWs d)) ::
      wordsOfF fuel ((c :: rest).dropWhile (fun d => !jsWs d))

/-- Sequence of maximal non-whitespace runs of a line. -/
def wordsOf (l : List Char) : List (List Char) := wordsOfF (l.length + 1) l

/-- Words joined by single spaces; the canonical whitespace-normal
form. -/
def joinWords : List (List Char) → List Char
  | [] => []
  | [w] => w
  | w :: ws => w ++ spCh :: joinWords ws

/-! ## Worker comparison (compareFile)

The worker's asynchronous file accesses are embedded against an abstract
file system: a function from paths to optional contents, constant for
the duration of one comparison.  Node's path.join is modelled as
separator concatenation; its normalization of dots and repeated
separators is irrelevant to every claim below. -/

/-- Paths joined with the platform separator (simplified path.join). -/
def joinPath (dir file : List Char) : List Char := dir ++ '/' :: file

/-- DiffParamsIn of the worker: one comparison request. -/
structure DiffParamsIn where
  currentFilePath : List Char
  compareWorkspaceFilePath : List Char
  compareRelativeFilePath : List Char
  compareWorkspaceName : List Char
  ignoreWhiteSpace : Bool
  baseContent : Option (List Char)
deriving DecidableEq, Repr

/-- Embedding of compareFile: reference and target existence checks,
the not-found short circuits, the fast equality path, and the counts
computation.  Preloaded base content makes the base count as existing
without consulting the file system, as in the source. -/
def compareFile (fsys : List Char → Option (List Char)) (p : DiffParamsIn) :
    DiffResult :=
  let resolved := joinPath p.compareWorkspaceFilePath p.compareRelativeFilePath
  let baseExists := p.baseContent.isSome || (fsys p.currentFilePath).isSome
  let compareExists := (fsys resolved).isSome
  if !baseExists then
    ⟨p.compareWorkspaceName, 0, ⟨0, 0⟩, resolved, compareExists,
      p.compareWorkspaceFilePath⟩
  else if !compareExists then
    ⟨p.compareWorkspaceName, 0, ⟨0, 0⟩, resolved, false,
      p.compareWorkspaceFilePath⟩
  else
    let baseText := p.baseContent.getD ((fsys p.currentFilePath).getD [])
    let compareText := (fsys resolved).getD []
    if baseText = compareText then
      ⟨p.compareWorkspaceName, 0, ⟨0, 0⟩, resolved, true,
        p.compareWorkspaceFilePath⟩
    else
      let c := computeDiffCounts baseText compareText p.ignoreWhiteSpace
      ⟨p.compareWorkspaceName, c.added + c.removed, c, resolved, true,
        p.compareWorkspaceFilePath⟩

/-! ## Result cache (diffCache.ts)

The cache key is a string built from the whitespace flag, the normalized
paths and the modification times, separated by fixed markers; two keys
are equal exactly when those five components are equal, so the key is
embedded as the record of its components.  Modification times are
integers here (the source holds millisecond floats; nothing below
depends on fractional times).  The JavaScript Map is embedded as its
insertion-ordered entry list with unique keys: set on a present key
updates the entry in place, set on an absent key appends, delete removes
the entry, and iteration order is list order. -/

/-- DiffCacheKeyParts of diffCache.ts. -/
structure DiffCacheKeyParts where
  basePath : List Char
  baseMtimeMs : Int
  comparePath : List Char
  compareMtimeMs : Int
  ignoreWhitespace : Bool
deriving DecidableEq, Repr

/-- Components of the cache-key string produced by makeCacheKey. -/
structure CacheKey where
  iw : Bool
  b : List Char
  bm : Int
  c : List Char
  cm : Int
deriving DecidableEq, Repr

/-- Path normalization: lower-case on case-insensitive file systems
(the boolean parameter stands for the platform test for win32 or
darwin). -/
def normPath (ci : Bool) (p : List Char) : List Char :=
  if ci then p.map Char.toLower else p

/-- Embedding of makeCacheKey. -/
def makeCacheKey (ci : Bool) (parts : DiffCacheKeyParts) : CacheKey :=
  ⟨parts.ignoreWhitespace, normPath ci parts.basePath, parts.baseMtimeMs,
    normPath ci parts.comparePath, parts.compareMtimeMs⟩

/-- Embedding of makeReversedKey: the key of the same request with base
and compare swapped. -/
def makeReversedKey (ci : Bool) (parts : DiffCacheKeyParts) : CacheKey :=
  makeCacheKey ci
    ⟨parts.comparePath, parts.compareMtimeMs, parts.basePath,
      parts.baseMtimeMs, parts.ignoreWhitespace⟩

/-- CacheEntry of diffCache.ts. -/
structure CacheEntry where
  key : CacheKey
  parts : DiffCacheKeyParts
  result : DiffResult
deriving DecidableEq, Repr

/-- State of the JavaScript Map backing the cache, in insertion order. -/
abbrev CacheState : Type := List (CacheKey × CacheEntry)

/-- Map.get: first entry with the given key. -/
def mapGet : CacheState → CacheKey → Option CacheEntry
  | [], _ => none
  | (k', e) :: rest, k => if k' = k then some e else mapGet rest k

/-- Map.set: update in place when the key is present (the entry keeps
its position in iteration order), append otherwise. -/
def mapSet (m : CacheState) (k : CacheKey) (e : CacheEntry) : CacheState :=
  if (mapGet m k).isSome then
    m.map (fun p => if p.1 = k then (k, e) else p)
  else m ++ [(k, e)]

/-- Map.delete: remove the entry with the given key. -/
def mapDelete (m : CacheState) (k : CacheKey) : CacheState :=
  m.filter (fun p => p.1 ≠ k)

namespace DiffCache

/-- Embedding of DiffCache.get: direct lookup with move-to-end
promotion, then reversed lookup synthesizing a result with the counts
swapped and the compare path rewritten to the requested one; the
remaining fields are copied from the cached result.  The returned state
is the cache after the LRU promotion. -/
def get (ci : Bool) (m : CacheState) (parts : DiffCacheKeyParts) :
    Option DiffResult × CacheState :=
  let key := makeCacheKey ci parts
  match mapGet m key with
  | some entry => (some entry.result, mapSet (mapDelete m key) key entry)
  | none =>
    let rkey := makeReversedKey ci parts
    match mapGet m rkey with
    | some entry =>
      let r := entry.result
      (some ⟨r.projectName, r.diffLineCount,
          ⟨r.diffDetail.removed, r.diffDetail.added⟩,
          parts.comparePath, r.fileExists, r.compareWorkspaceFilePath⟩,
        mapSet (mapDelete m rkey) rkey entry)
    | none => (none, m)

/-- Embedding of the eviction loop: while the size exceeds the maximum,
delete the first key in iteration order.  The fuel is the list length,
enough for the loop to empty the map. -/
def evictIfNeeded (maxEntries : Nat) : Nat → CacheState → CacheState
  | 0, m => m
  | fuel + 1, m =>
    if maxEntries < m.length then
      match m with
      | [] => []
      | _ :: rest => evictIfNeeded maxEntries fuel rest
    else m

/-- Embedding of DiffCache.set: store a copy of the result under the
direct key, then evict while over capacity. -/
def set (ci : Bool) (maxEntries : Nat) (m : CacheState)
    (parts : DiffCacheKeyParts) (result : DiffResult) : CacheState :=
  let key := makeCacheKey ci parts
  let m' := mapSet m key ⟨key, parts, result⟩
  evictIfNeeded maxEntries m'.length m'

end DiffCache

/-- Folding DiffCache.set over a list of requests, oldest first. -/
def insertAll (ci : Bool) (maxEntries : Nat) (m : CacheState)
    (ps : List (DiffCacheKeyParts × DiffResult)) : CacheState :=
  ps.foldl (fun acc pr => DiffCache.set ci maxEntries acc pr.1 pr.2) m

/-! ## Run coordinator post-processing and publication (runDiff)

The sort comparator, the sort itself (Array.prototype.sort is stable and
orders by the comparator; a stable merge sort models it), and the
reference-file filter are embedded from the post-processing block of
runDiff.  Publication is embedded as a small event system acting on the
coordinator state: starting a run increments the current run identifier;
a finishing run either publishes its sorted results, guarded by the
identifier comparison of the source, or runs the catch block, which
refreshes the view with the empty state unconditionally and only guards
the error message. -/

/-- Embedding of the sort comparator of runDiff: existing files first,
then ascending total changed lines. -/
def diffResultCmp (x y : DiffResult) : Int :=
  if x.fileExists ≠ y.fileExists then (if x.fileExists then -1 else 1)
  else x.diffLineCount - y.diffLineCount

/-- Non-positive comparator outcome as a boolean ordering relation. -/
def diffResultLe (x y : DiffResult) : Bool := diffResultCmp x y ≤ 0

/-- Embedding of results.sort(comparator): a stable sort by the
comparator ordering, as ECMAScript guarantees for Array.prototype.sort. -/
def sortResults (l : List DiffResult) : List DiffResult :=
  l.mergeSort diffResultLe

/-- Path identity used by the reference filter: case-insensitive on
case-insensitive file systems. -/
def samePathCi (ci : Bool) (p q : List Char) : Bool :=
  if ci then p.map Char.toLower = q.map Char.toLower else p = q

/-- Embedding of the reference-file filter of runDiff: keep results
whose compare path is not the reference path under the platform path
identity. -/
def filterOutReference (ci : Bool) (ref : List Char) (l : List DiffResult) :
    List DiffResult :=
  l.filter (fun r => !samePathCi ci r.compareFilePath ref)

/-- Post-processing block of runDiff: sort, then filter out the
reference file. -/
def postProcessResults (ci : Bool) (ref : List Char) (l : List DiffResult) :
    List DiffResult :=
  filterOutReference ci ref (sortResults l)

/-- View payload as the tree view receives it from refresh. -/
structure ViewState where
  filePath : Option (List Char)
  results : List DiffResult
deriving DecidableEq, Repr

/-- Coordinator state: the current run identifier and the last published
view. -/
structure OrchState where
  currentRunId : Nat
  view : ViewState
deriving DecidableEq, Repr

/-- Publication-relevant events of runDiff: allocation of a new run
identifier at entry, the success-path publication of a run holding the
identifier it was started with, and the catch-block publication of the
same run. -/
inductive RunEvent where
  | startRun : RunEvent
  | publishSuccess : Nat → Option (List Char) → List DiffResult → RunEvent
  | publishError : Nat → RunEvent
deriving DecidableEq, Repr

/-- Embedding of the publication logic: the success path updates the
view only when the publishing run still holds the current identifier;
the catch block refreshes the view with the empty state without
consulting the identifier (only the error message is so guarded in the
source). -/
def execEvent (s : OrchState) : RunEvent → OrchState
  | RunEvent.startRun => ⟨s.currentRunId + 1, s.view⟩
  | RunEvent.publishSuccess myRunId fp results =>
    if myRunId = s.currentRunId then ⟨s.currentRunId, ⟨fp, results⟩⟩ else s
  | RunEvent.publishError _ => ⟨s.currentRunId, ⟨none, []⟩⟩

/-- Interleaved execution of publication events. -/
def execTrace (s : OrchState) (tr : List RunEvent) : OrchState :=
  tr.foldl execEvent s

/-! ## Concrete fixtures for the cache scenarios -/

/-- Concrete key parts for the reverse-lookup examples. -/
def exParts : DiffCacheKeyParts := ⟨("a".toList), 1, ("b".toList), 2, false⟩

/-- The same request with base and compare swapped. -/
def exPartsRev : DiffCacheKeyParts :=
  ⟨("b".toList), 2, ("a".toList), 1, false⟩

/-- A cached result with a chosen label and existence flag. -/
def exResult (pn : List Char) (fe : Bool) : DiffResult :=
  ⟨pn, 5, ⟨2, 3⟩, ("a".toList), fe, ("w".toList)⟩

/-- A one-entry cache holding the swapped request's result. -/
def exCache (pn : List Char) (fe : Bool) : CacheState :=
  [(makeCacheKey false exPartsRev,
    ⟨makeCacheKey false exPartsRev, exPartsRev, exResult pn fe⟩)]

/-- Key parts used by the eviction scenarios. -/
def qp (b c : List Char) : DiffCacheKeyParts := ⟨b, 0, c, 0, false⟩

/-- A fixed result value for the eviction scenarios. -/
def qRes : DiffResult :=
  ⟨("p".toList), 0, ⟨0, 0⟩, ("x".toList), true, ("w".toList)⟩

/-- A second result value, used to overwrite an entry. -/
def qRes2 : DiffResult :=
  ⟨("p2".toList), 7, ⟨4, 3⟩, ("x".toList), true, ("w".toList)⟩

/-- Two entries inserted into an empty cache of capacity 2. -/
def lruSt1 : CacheState :=
  insertAll false 2 []
    [(qp ("a".toList) ("x".toList), qRes), (qp ("b".toList) ("y".toList), qRes)]

/-- The cache after a successful get of the older entry. -/
def lruSt2 : CacheState :=
  (DiffCache.get false lruSt1 (qp ("a".toList) ("x".toList))).2

/-- A third insertion after the get: capacity forces one eviction. -/
def lruSt3 : CacheState :=
  DiffCache.set false 2 lruSt2 (qp ("c".toList) ("z".toList)) qRes

/-- A third insertion without any intervening get. -/
def lruSt3noGet : CacheState :=
  DiffCache.set false 2 lruSt1 (qp ("c".toList) ("z".toList)) qRes

/-- Overwriting the older entry by a second set on its key. -/
def owSt2 : CacheState :=
  DiffCache.set false 2 lruSt1 (qp ("a".toList) ("x".toList)) qRes2

/-- A third insertion after the overwrite: capacity forces one
eviction. -/
def owSt3 : CacheState :=
  DiffCache.set false 2 owSt2 (qp ("c".toList) ("z".toList)) qRes

theorem lcsLen_cons_self {α : Type} [DecidableEq α] (y : α) (xs ys : List α) :
    lcsLen (y :: xs) (y :: ys) = lcsLen xs ys + 1 := by
  simp [lcsLen]

theorem lcsLen_cons_ne {α : Type} [DecidableEq α] {x y : α} (h : ¬x = y) (xs ys : List α) :
    lcsLen (x :: xs) (y :: ys) = max (lcsLen (x :: xs) ys) (lcsLen xs (y :: ys)) := by
  simp [lcsLen, h]

theorem lcsLen_nil_right {α : Type} [DecidableEq α] (a : List α) : lcsLen a [] = 0 := by
  cases a <;> simp [lcsLen]

theorem lcsLen_le_left {α : Type} [DecidableEq α] :
    ∀ a b : List α, lcsLen a b ≤ a.length := by
  intro a b
  induction a, b using lcsLen.induct with
  | case1 b => simp [lcsLen]
  | case2 x xs => simp [lcsLen]
  | case3 xs y ys ih => rw [lcsLen_cons_self]; simpa using ih
  | case4 x xs y ys h ih1 ih2 =>
    rw [lcsLen_cons_ne h]
    exact max_le ih1 (le_trans ih2 (by simp))

theorem lcsLen_le_right {α : Type} [DecidableEq α] :
    ∀ a b : List α, lcsLen a b ≤ b.length := by
  intro a b
  induction a, b using lcsLen.induct with
  | case1 b => simp [lcsLen]
  | case2 x xs => simp [lcsLen]
  | case3 xs y ys ih => rw [lcsLen_cons_self]; simpa using ih
  | case4 x xs y ys h ih1 ih2 =>
    rw [lcsLen_cons_ne h]
    exact max_le (le_trans ih1 (by simp)) ih2

theorem lcsLen_upper {α : Type} [DecidableEq α] :
    ∀ a b : List α, ∀ c : List α, c <+ a → c <+ b → c.length ≤ lcsLen a b := by
  intro a b
  induction a, b using lcsLen.induct with
  | case1 b =>
    intro c hca _
    have := List.sublist_nil.mp hca
    simp [this, lcsLen]
  | case2 x xs =>
    intro c _ hcb
    have := List.sublist_nil.mp hcb
    simp [this, lcsLen]
  | case3 xs y ys ih =>
    intro c hca hcb
    rw [lcsLen_cons_self]
    rcases List.sublist_cons_iff.mp hca with hxs | ⟨r, rfl, hr⟩
    · rcases List.sublist_cons_iff.mp hcb with hys | ⟨r', rfl, hr'⟩
      · exact le_trans (ih c hxs hys) (Nat.le_succ _)
      · have : r' <+ xs := (List.sublist_cons_self y r').trans hxs
        simpa using Nat.succ_le_succ (ih r' this hr')
    · rcases List.sublist_cons_iff.mp hcb with hys | ⟨r', hrr, hr'⟩
      · have : r <+ ys := (List.sublist_cons_self y r).trans hys
        simpa using Nat.succ_le_succ (ih r hr this)
      · rcases List.cons_eq_cons.mp hrr with ⟨h1, h2⟩
        subst h2
        simpa using Nat.succ_le_succ (ih r hr hr')
  | case4 x xs y ys h ih1 ih2 =>
    intro c hca hcb
    rw [lcsLen_cons_ne h]
    rcases List.sublist_cons_iff.mp hca with hxs | ⟨r, rfl, hr⟩
    · exact le_trans (ih2 c hxs hcb) (le_max_right _ _)
    · rcases List.sublist_cons_iff.mp hcb with hys | ⟨r', hrr, hr'⟩
      · exact le_trans (ih1 _ hca hys) (le_max_left _ _)
      · rcases List.cons_eq_cons.mp hrr with ⟨h1, h2⟩
        exact absurd h1 h

theorem lcsLen_witness {α : Type} [DecidableEq α] :
    ∀ a b : List α, ∃ c : List α, c <+ a ∧ c <+ b ∧ c.length = lcsLen a b := by
  intro a b
  induction a, b using lcsLen.induct with
  | case1 b => exact ⟨[], List.nil_sublist _, List.nil_sublist _, by simp [lcsLen]⟩
  | case2 x xs => exact ⟨[], List.nil_sublist _, List.nil_sublist _, by simp [lcsLen]⟩
  | case3 xs y ys ih =>
    obtain ⟨c, hca, hcb, hlen⟩ := ih
    exact ⟨y :: c, hca.cons₂ y, hcb.cons₂ y, by simp [lcsLen_cons_self, hlen]⟩
  | case4 x xs y ys h ih1 ih2 =>
    rcases Nat.le_total (lcsLen (x :: xs) ys) (lcsLen xs (y :: ys)) with hle | hle
    · obtain ⟨c, hca, hcb, hlen⟩ := ih2
      refine ⟨c, (hca.trans (List.sublist_cons_self x xs)), hcb, ?_⟩
      rw [lcsLen_cons_ne h, Nat.max_eq_right hle, hlen]
    · obtain ⟨c, hca, hcb, hlen⟩ := ih1
      refine ⟨c, hca, (hcb.trans (List.sublist_cons_self y ys)), ?_⟩
      rw [lcsLen_cons_ne h, Nat.max_eq_left hle, hlen]

theorem lcsLen_comm {α : Type} [DecidableEq α] :
    ∀ a b : List α, lcsLen a b = lcsLen b a := by
  intro a b
  induction a, b using lcsLen.induct with
  | case1 b => rw [lcsLen_nil_right]; simp [lcsLen]
  | case2 x xs => rw [lcsLen_nil_right]; simp [lcsLen]
  | case3 xs y ys ih => rw [lcsLen_cons_self, lcsLen_cons_self, ih]
  | case4 x xs y ys h ih1 ih2 =>
    rw [lcsLen_cons_ne h, lcsLen_cons_ne (fun hyx => h hyx.symm), ih1, ih2,
      Nat.max_comm]

/-! ### Basic properties of edit-graph segments -/

theorem Seg.trans {a b : List Int} {x₀ y₀ d₁ x₁ y₁ d₂ x₂ y₂ : Nat}
    (h₁ : Seg a b x₀ y₀ d₁ x₁ y₁) (h₂ : Seg a b x₁ y₁ d₂ x₂ y₂) :
    Seg a b x₀ y₀ (d₁ + d₂) x₂ y₂ := by
  induction h₂ with
  | base => exact h₁
  | diag hseg hx hy heq ih => exact ih.diag hx hy heq
  | del hseg ih => exact ih.del
  | ins hseg ih => exact ih.ins

theorem seg_dels (a b : List Int) (x y : Nat) :
    ∀ t : Nat, Seg a b x y t (x + t) y := by
  intro t
  induction t with
  | zero => exact Seg.base
  | succ t ih => exact ih.del

theorem seg_inss (a b : List Int) (x y : Nat) :
    ∀ t : Nat, Seg a b x y t x (y + t) := by
  intro t
  induction t with
  | zero => exact Seg.base
  | succ t ih => exact ih.ins

theorem seg_cast_d {a b : List Int} {x₀ y₀ d d' x y : Nat}
    (h : Seg a b x₀ y₀ d x y) (hd : d = d') : Seg a b x₀ y₀ d' x y := hd ▸ h

/-- Every reachable diagonal is bounded by the edit count: a path with d
non-diagonal moves cannot stray more than d away from the main
diagonal. -/
theorem reach_diag_bound {a b : List Int} {d x y : Nat}
    (h : Reach a b d x y) : (x : Int) - y ≤ d ∧ (y : Int) - x ≤ d := by
  induction h with
  | base => simp
  | diag hseg hx hy heq ih => push_cast; push_cast at ih; omega
  | del hseg ih => push_cast; push_cast at ih; omega
  | ins hseg ih => push_cast; push_cast at ih; omega

/-- A path of cost zero runs along the main diagonal over matching
tokens. -/
theorem reach_zero {a b : List Int} {x y : Nat} (h : Reach a b 0 x y) :
    x = y ∧ ∀ t, t < x →
      t < a.length ∧ t < b.length ∧ a.getD t 0 = b.getD t 0 := by
  generalize hd : 0 = d at h
  induction h with
  | base => exact ⟨rfl, by omega⟩
  | diag hseg hx hy heq ih =>
    obtain ⟨hxy, hrun⟩ := ih hd
    subst hxy
    refine ⟨rfl, ?_⟩
    intro t ht
    rcases Nat.lt_succ_iff_lt_or_eq.mp ht with ht' | rfl
    · exact hrun t ht'
    · exact ⟨hx, hy, heq⟩
  | del hseg ih => omega
  | ins hseg ih => omega

/-- A path from the origin yields a common subsequence of the two
consumed segments whose length accounts for all moves: twice the matched
length plus the edit count is the total consumed length. -/
theorem reach_to_subseq {a b : List Int} {d x y : Nat}
    (h : Reach a b d x y) :
    ∃ c : List Int, c <+ a.take x ∧ c <+ b.take y ∧
      2 * c.length + d = x + y := by
  induction h with
  | base => exact ⟨[], List.nil_sublist _, List.nil_sublist _, by simp⟩
  | @diag d x y hseg hx hy heq ih =>
    obtain ⟨c, hca, hcb, hlen⟩ := ih
    have hga : a.getD x 0 = a[x] := List.getD_eq_getElem a 0 hx
    have hgb : b.getD y 0 = b[y] := List.getD_eq_getElem b 0 hy
    refine ⟨c ++ [a.getD x 0], ?_, ?_, ?_⟩
    · rw [List.take_succ, List.getElem?_eq_getElem hx, hga]
      exact hca.append (by simp)
    · rw [List.take_succ, List.getElem?_eq_getElem hy, heq, hgb]
      exact hcb.append (by simp)
    · simp only [List.length_append, List.length_singleton]; omega
  | @del d x y hseg ih =>
    obtain ⟨c, hca, hcb, hlen⟩ := ih
    refine ⟨c, ?_, hcb, by omega⟩
    exact hca.trans (by rw [List.take_succ]; exact List.sublist_append_left _ _)
  | @ins d x y hseg ih =>
    obtain ⟨c, hca, hcb, hlen⟩ := ih
    refine ⟨c, hca, ?_, by omega⟩
    exact hcb.trans (by rw [List.take_succ]; exact List.sublist_append_left _ _)

/-- Decomposition of a cons sublist of a dropped suffix: the head occurs
at some position past the drop point and the tail is a sublist of what
comes after that position. -/
theorem cons_sublist_drop_aux {e : Int} (l : List Int) :
    ∀ (fuel x₀ : Nat), l.length - x₀ ≤ fuel →
      ∀ c : List Int, e :: c <+ l.drop x₀ →
      ∃ i, x₀ ≤ i ∧ i < l.length ∧ l.getD i 0 = e ∧ c <+ l.drop (i + 1) := by
  intro fuel
  induction fuel with
  | zero =>
    intro x₀ hle c hc
    rw [List.drop_eq_nil_of_le (by omega)] at hc
    exact absurd hc (by simp)
  | succ fuel ih =>
    intro x₀ hle c hc
    by_cases hx₀ : x₀ < l.length
    · rw [List.drop_eq_getElem_cons hx₀] at hc
      rcases List.sublist_cons_iff.mp hc with htail | ⟨r, hrr, hr⟩
      · obtain ⟨i, hi₁, hi₂, hi₃, hi₄⟩ := ih (x₀ + 1) (by omega) c htail
        exact ⟨i, by omega, hi₂, hi₃, hi₄⟩
      · rcases List.cons_eq_cons.mp hrr with ⟨h1, h2⟩
        subst h2
        exact ⟨x₀, le_refl _, hx₀, by rw [List.getD_eq_getElem l 0 hx₀, h1], hr⟩
    · rw [List.drop_eq_nil_of_le (by omega)] at hc
      exact absurd hc (by simp)

theorem cons_sublist_drop {e : Int} (x₀ : Nat) (l : List Int) (c : List Int)
    (hc : e :: c <+ l.drop x₀) :
    ∃ i, x₀ ≤ i ∧ i < l.length ∧ l.getD i 0 = e ∧ c <+ l.drop (i + 1) :=
  cons_sublist_drop_aux l l.length x₀ (by omega) c hc

/-- Construction of an edit path from a common subsequence: if c is a
common subsequence of the two suffixes, the terminal corner is reachable
from the suffix start with one deletion per unmatched left token and one
insertion per unmatched right token. -/
theorem subseq_seg {a b : List Int} :
    ∀ (c : List Int) (x₀ y₀ : Nat), c <+ a.drop x₀ → c <+ b.drop y₀ →
      x₀ ≤ a.length → y₀ ≤ b.length →
      Seg a b x₀ y₀ ((a.length - x₀ - c.length) + (b.length - y₀ - c.length))
        a.length b.length := by
  intro c
  induction c with
  | nil =>
    intro x₀ y₀ _ _ hx hy
    have h₁ : Seg a b x₀ y₀ (a.length - x₀) a.length y₀ := by
      have := seg_dels a b x₀ y₀ (a.length - x₀)
      exact seg_cast_d (by rwa [Nat.add_sub_cancel' hx] at this) rfl
    have h₂ : Seg a b a.length y₀ (b.length - y₀) a.length b.length := by
      have := seg_inss a b a.length y₀ (b.length - y₀)
      rwa [Nat.add_sub_cancel' hy] at this
    have := h₁.trans h₂
    simpa using this
  | cons e c ihc =>
    intro x₀ y₀ hca hcb hx hy
    obtain ⟨i, hi₁, hi₂, hi₃, hi₄⟩ := cons_sublist_drop x₀ a _ hca
    obtain ⟨j, hj₁, hj₂, hj₃, hj₄⟩ := cons_sublist_drop y₀ b _ hcb
    have hdels : Seg a b x₀ y₀ (i - x₀) i y₀ := by
      have := seg_dels a b x₀ y₀ (i - x₀)
      rwa [Nat.add_sub_cancel' hi₁] at this
    have hinss : Seg a b i y₀ (j - y₀) i j := by
      have := seg_inss a b i y₀ (j - y₀)
      rwa [Nat.add_sub_cancel' hj₁] at this
    have hdiag : Seg a b x₀ y₀ ((i - x₀) + (j - y₀)) (i + 1) (j + 1) :=
      (hdels.trans hinss).diag hi₂ hj₂ (by rw [hi₃, hj₃])
    have hrest := ihc (i + 1) (j + 1) hi₄ hj₄ (by omega) (by omega)
    have hclen₁ : c.length ≤ a.length - (i + 1) := by
      have := hi₄.length_le
      simp only [List.length_drop] at this
      omega
    have hclen₂ : c.length ≤ b.length - (j + 1) := by
      have := hj₄.length_le
      simp only [List.length_drop] at this
      omega
    refine seg_cast_d (hdiag.trans hrest) ?_
    simp only [List.length_cons]
    omega

/-- Lower bound: any edit path that consumes both sequences entirely
needs at least total length minus twice the LCS length many edits. -/
theorem reach_lower_bound {a b : List Int} {d x y : Nat}
    (h : Reach a b d x y) (hx : a.length ≤ x) (hy : b.length ≤ y) :
    a.length + b.length ≤ d + 2 * lcsLen a b := by
  obtain ⟨c, hca, hcb, hlen⟩ := reach_to_subseq h
  have hca' : c <+ a := hca.trans (by rw [List.take_of_length_le hx])
  have hcb' : c <+ b := hcb.trans (by rw [List.take_of_length_le hy])
  have := lcsLen_upper a b c hca' hcb'
  omega

/-- Existence: the terminal corner is reachable with total length minus
twice the LCS length many edits. -/
theorem reach_lcs (a b : List Int) :
    Reach a b ((a.length - lcsLen a b) + (b.length - lcsLen a b))
      a.length b.length := by
  obtain ⟨c, hca, hcb, hlen⟩ := lcsLen_witness a b
  have := subseq_seg c 0 0 (by simpa using hca) (by simpa using hcb)
    (Nat.zero_le _) (Nat.zero_le _)
  simp only [Nat.sub_zero] at this
  rw [hlen] at this
  exact this

/-! ### Snake lemmas: the diagonal slide computes the maximal free
extension -/

theorem slide_le (a b : List Int) :
    ∀ (fuel x : Nat) (y : Int), x ≤ slide a b fuel x y := by
  intro fuel
  induction fuel with
  | zero => intro x y; simp [slide]
  | succ fuel ih =>
    intro x y
    simp only [slide]
    split
    · exact le_trans (Nat.le_succ x) (ih (x + 1) (y + 1))
    · exact le_refl x

theorem slide_seg {a b : List Int} :
    ∀ (fuel x y0 d : Nat), Reach a b d x y0 →
      ∃ t, slide a b fuel x (y0 : Int) = x + t ∧ Reach a b d (x + t) (y0 + t) := by
  intro fuel
  induction fuel with
  | zero => intro x y0 d hr; exact ⟨0, rfl, by simpa using hr⟩
  | succ fuel ih =>
    intro x y0 d hr
    simp only [slide]
    split
    · rename_i hcond
      have hy0m : y0 < b.length := by exact_mod_cast hcond.2.2.1
      have heq' : a.getD x 0 = b.getD y0 0 := by
        have := hcond.2.2.2
        rwa [(by simp : ((y0 : Int)).toNat = y0)] at this
      have hr' : Reach a b d (x + 1) (y0 + 1) := Seg.diag hr hcond.1 hy0m heq'
      have hcast : (y0 : Int) + 1 = ((y0 + 1 : Nat) : Int) := by push_cast; ring
      rw [hcast]
      obtain ⟨t, ht1, ht2⟩ := ih (x + 1) (y0 + 1) d hr'
      refine ⟨t + 1, ?_, ?_⟩
      · rw [ht1]; omega
      · rw [(by omega : x + 1 + t = x + (t + 1))] at ht2
        rwa [(by omega : y0 + 1 + t = y0 + (t + 1))] at ht2
    · exact ⟨0, rfl, by simpa using hr⟩

theorem slide_max {a b : List Int} :
    ∀ (fuel xs : Nat) (ys : Int) (xe : Nat), xs ≤ xe → xe - xs ≤ fuel →
      (∀ t : Nat, xs + t < xe → (xs + t < a.length ∧ 0 ≤ ys + t ∧
        ys + t < (b.length : Int) ∧
        a.getD (xs + t) 0 = b.getD (ys + t).toNat 0)) →
      xe ≤ slide a b fuel xs ys := by
  intro fuel
  induction fuel with
  | zero =>
    intro xs ys xe hle hfuel _
    have : xe = xs := by omega
    simp [slide, this]
  | succ fuel ih =>
    intro xs ys xe hle hfuel hrun
    by_cases hxe : xs = xe
    · exact hxe ▸ slide_le a b (fuel + 1) xs ys
    · have hlt : xs < xe := by omega
      have h0 := hrun 0 (by omega)
      simp only [Nat.add_zero, Nat.cast_zero, Int.add_zero] at h0
      simp only [slide]
      rw [if_pos h0]
      refine ih (xs + 1) (ys + 1) xe (by omega) (by omega) ?_
      intro t ht
      have := hrun (t + 1) (by omega)
      rw [(by omega : xs + (t + 1) = xs + 1 + t)] at this
      rwa [(by push_cast; ring : ys + ((t + 1 : Nat) : Int) = ys + 1 + t)] at this

/-! ### Decomposition of a path by its last non-diagonal move -/

theorem reach_succ_decomp {a b : List Int} {e x y : Nat}
    (h : Reach a b e x y) :
    ∀ d, e = d + 1 →
    ∃ x₁ y₁ x₂ y₂, Reach a b d x₁ y₁ ∧
      ((x₂ = x₁ + 1 ∧ y₂ = y₁) ∨ (x₂ = x₁ ∧ y₂ = y₁ + 1)) ∧
      x₂ ≤ x ∧ y₂ ≤ y ∧ x - x₂ = y - y₂ ∧
      (∀ t, t < x - x₂ → (x₂ + t < a.length ∧ y₂ + t < b.length ∧
        a.getD (x₂ + t) 0 = b.getD (y₂ + t) 0)) := by
  induction h with
  | base => intro d hd; omega
  | @diag e' x' y' hseg hx hy heq ih =>
    intro d hd
    obtain ⟨x₁, y₁, x₂, y₂, h1, h2, h3, h4, h5, h6⟩ := ih d hd
    refine ⟨x₁, y₁, x₂, y₂, h1, h2, by omega, by omega, by omega, ?_⟩
    intro t ht
    by_cases ht' : t < x' - x₂
    · exact h6 t ht'
    · have hte : t = x' - x₂ := by omega
      have hxt : x₂ + t = x' := by omega
      have hyt : y₂ + t = y' := by omega
      rw [hxt, hyt]
      exact ⟨hx, hy, heq⟩
  | @del e' x' y' hseg ih =>
    intro d hd
    have he' : e' = d := by omega
    subst he'
    exact ⟨x', y', x' + 1, y', hseg, Or.inl ⟨rfl, rfl⟩, le_refl _, le_refl _,
      by omega, by omega⟩
  | @ins e' x' y' hseg ih =>
    intro d hd
    have he' : e' = d := by omega
    subst he'
    exact ⟨x', y', x', y' + 1, hseg, Or.inr ⟨rfl, rfl⟩, le_refl _, le_refl _,
      by omega, by omega⟩

/-! ### One step of the inner diagonal loop establishes the frontier
invariant -/

theorem stepK_spec (a b : List Int) (d : Nat) (hd : 1 ≤ d) (v : Int → Nat)
    (k : Int)
    (Hm1 : k ≠ -(d : Int) → InvAt a b (d - 1) (k - 1) (v (k - 1)))
    (Hp1 : k ≠ (d : Int) → InvAt a b (d - 1) (k + 1) (v (k + 1)))
    (x0 : Nat)
    (hx0 : x0 = if k = -(d : Int) ∨ (k ≠ (d : Int) ∧ v (k - 1) < v (k + 1))
      then v (k + 1) else v (k - 1) + 1)
    (xf : Nat) (hxf : xf = slide a b a.length x0 ((x0 : Int) - k)) :
    InvAt a b d k xf := by
  -- Soundness of the chosen start point: it lies on diagonal k and is
  -- reachable with d edits.
  obtain ⟨y0, hy0, hr0⟩ :
      ∃ y0 : Nat, (y0 : Int) = (x0 : Int) - k ∧ Reach a b d x0 y0 := by
    by_cases hcond : k = -(d : Int) ∨ (k ≠ (d : Int) ∧ v (k - 1) < v (k + 1))
    · have hx0' : x0 = v (k + 1) := by rw [hx0, if_pos hcond]
      have hkne : k ≠ (d : Int) := by
        rcases hcond with h | h
        · omega
        · exact h.1
      obtain ⟨hle1, hreach1, _⟩ := Hp1 hkne
      have hy1 : ((v (k + 1) : Int) - (k + 1)).toNat + 1 =
          ((x0 : Int) - k).toNat := by omega
      have hstep : Reach a b (d - 1 + 1) x0
          (((v (k + 1) : Int) - (k + 1)).toNat + 1) := by
        rw [hx0']
        exact Seg.ins hreach1
      refine ⟨((v (k + 1) : Int) - (k + 1)).toNat + 1, by omega, ?_⟩
      exact seg_cast_d hstep (by omega)
    · have hx0' : x0 = v (k - 1) + 1 := by rw [hx0, if_neg hcond]
      push_neg at hcond
      obtain ⟨hle1, hreach1, _⟩ := Hm1 hcond.1
      have hstep : Reach a b (d - 1 + 1) x0
          (((v (k - 1) : Int) - (k - 1)).toNat) := by
        rw [hx0']
        exact Seg.del hreach1
      refine ⟨((v (k - 1) : Int) - (k - 1)).toNat, by omega, ?_⟩
      exact seg_cast_d hstep (by omega)
  -- The slide preserves reachability and lands on the same diagonal.
  have hslide : ∃ t, xf = x0 + t ∧ Reach a b d (x0 + t) (y0 + t) := by
    rw [hxf, ← hy0]
    obtain ⟨t, ht1, ht2⟩ := slide_seg a.length x0 y0 d hr0
    exact ⟨t, ht1, ht2⟩
  obtain ⟨t, htf, hrt⟩ := hslide
  refine ⟨by omega, ?_, ?_⟩
  · have : ((xf : Int) - k).toNat = y0 + t := by omega
    rw [this, htf]
    exact hrt
  -- Completeness: any point on diagonal k reachable with d edits lies at
  -- or before the slide end.
  · intro x y hxy hr
    obtain ⟨x₁, y₁, x₂, y₂, hr1, hmove, hx2, hy2, hdr, hrun⟩ :=
      reach_succ_decomp hr (d - 1) (by omega)
    have hdiag2 : (x₂ : Int) - y₂ = k := by omega
    have hb := reach_diag_bound hr1
    have hx2le : x₂ ≤ x0 := by
      rcases hmove with ⟨hx21, hy21⟩ | ⟨hx21, hy21⟩
      · -- last edit deletes: the prior path ends on diagonal k - 1
        have hd1 : (x₁ : Int) - y₁ = k - 1 := by omega
        have hkne : k ≠ -(d : Int) := by omega
        have hcm := (Hm1 hkne).2.2 x₁ y₁ hd1 hr1
        rw [hx0]
        split
        · rename_i hsp
          rcases hsp with h | h
          · exact absurd h hkne
          · omega
        · omega
      · -- last edit inserts: the prior path ends on diagonal k + 1
        have hd1 : (x₁ : Int) - y₁ = k + 1 := by omega
        have hkne : k ≠ (d : Int) := by omega
        have hcp := (Hp1 hkne).2.2 x₁ y₁ hd1 hr1
        rw [hx0]
        split
        · omega
        · rename_i hsp
          push_neg at hsp
          have := hsp.2 hkne
          omega
    by_cases hxx0 : x ≤ x0
    · rw [hxf]
      exact le_trans hxx0 (slide_le a b a.length x0 _)
    · push_neg at hxx0
      have hxn : x ≤ a.length := by
        have := hrun (x - x₂ - 1) (by omega)
        omega
      rw [hxf]
      refine slide_max a.length x0 ((x0 : Int) - k) x (by omega) (by omega) ?_
      intro t ht
      have ht' := hrun (x0 - x₂ + t) (by omega)
      have hia : x₂ + (x0 - x₂ + t) = x0 + t := by omega
      have hib : (((x0 : Int) - k) + t).toNat = y₂ + (x0 - x₂ + t) := by omega
      rw [hia] at ht'
      refine ⟨ht'.1, by omega, by omega, ?_⟩
      rw [hib]
      exact ht'.2.2

/-! ### The inner loop maintains the frontier invariant across all
processed diagonals -/

theorem innerKStep_other (a b : List Int) (d : Nat) (v : Int → Nat) (j : Nat)
    (k' : Int) (h : k' ≠ -(d : Int) + 2 * (j : Int)) :
    (innerKStep a b d v j).1 k' = v k' := by
  simp only [innerKStep]
  rw [if_neg h]

theorem innerKStep_found (a b : List Int) (d : Nat) (v : Int → Nat) (j : Nat) :
    (innerKStep a b d v j).2 = true ↔
      (a.length ≤ (innerKStep a b d v j).1 (-(d : Int) + 2 * (j : Int)) ∧
        (b.length : Int) ≤
          ((innerKStep a b d v j).1 (-(d : Int) + 2 * (j : Int)) : Int) -
            (-(d : Int) + 2 * (j : Int))) := by
  simp only [innerKStep, if_pos rfl]
  exact decide_eq_true_iff

theorem innerKStep_inv (a b : List Int) (d : Nat) (hd : 1 ≤ d)
    (v : Int → Nat) (j : Nat)
    (Hm1 : -(d : Int) + 2 * (j : Int) ≠ -(d : Int) →
      InvAt a b (d - 1) (-(d : Int) + 2 * (j : Int) - 1)
        (v (-(d : Int) + 2 * (j : Int) - 1)))
    (Hp1 : -(d : Int) + 2 * (j : Int) ≠ (d : Int) →
      InvAt a b (d - 1) (-(d : Int) + 2 * (j : Int) + 1)
        (v (-(d : Int) + 2 * (j : Int) + 1))) :
    InvAt a b d (-(d : Int) + 2 * (j : Int))
      ((innerKStep a b d v j).1 (-(d : Int) + 2 * (j : Int))) := by
  have hval : (innerKStep a b d v j).1 (-(d : Int) + 2 * (j : Int)) =
      slide a b a.length
        (if -(d : Int) + 2 * (j : Int) = -(d : Int) ∨
            (-(d : Int) + 2 * (j : Int) ≠ (d : Int) ∧
              v (-(d : Int) + 2 * (j : Int) - 1) <
                v (-(d : Int) + 2 * (j : Int) + 1)) then
          v (-(d : Int) + 2 * (j : Int) + 1)
        else v (-(d : Int) + 2 * (j : Int) - 1) + 1)
        (((if -(d : Int) + 2 * (j : Int) = -(d : Int) ∨
            (-(d : Int) + 2 * (j : Int) ≠ (d : Int) ∧
              v (-(d : Int) + 2 * (j : Int) - 1) <
                v (-(d : Int) + 2 * (j : Int) + 1)) then
          v (-(d : Int) + 2 * (j : Int) + 1)
        else v (-(d : Int) + 2 * (j : Int) - 1) + 1 : Nat) : Int) -
          (-(d : Int) + 2 * (j : Int))) := by
    simp only [innerKStep, if_pos rfl]
    simp
  rw [hval]
  exact stepK_spec a b d hd v (-(d : Int) + 2 * (j : Int)) Hm1 Hp1 _ rfl _ rfl

theorem innerK_spec (a b : List Int) (d : Nat) (hd : 1 ≤ d) :
    ∀ (steps j : Nat) (v : Int → Nat), j + steps = d + 1 →
    (∀ k' : Int, -(d : Int) + 1 ≤ k' → k' ≤ (d : Int) - 1 →
      (k' + d) % 2 = 1 → InvAt a b (d - 1) k' (v k')) →
    (∀ k' : Int, -(d : Int) ≤ k' → k' < -(d : Int) + 2 * (j : Int) →
      (k' + d) % 2 = 0 → InvAt a b d k' (v k') ∧
      ¬(a.length ≤ v k' ∧ (b.length : Int) ≤ (v k' : Int) - k')) →
    ((innerK a b d v j steps).2 = true →
      ∃ x y : Nat, Reach a b d x y ∧ a.length ≤ x ∧ b.length ≤ y) ∧
    ((innerK a b d v j steps).2 = false →
      ∀ k' : Int, -(d : Int) ≤ k' → k' ≤ (d : Int) → (k' + d) % 2 = 0 →
        InvAt a b d k' ((innerK a b d v j steps).1 k') ∧
        ¬(a.length ≤ (innerK a b d v j steps).1 k' ∧
          (b.length : Int) ≤ ((innerK a b d v j steps).1 k' : Int) - k')) := by
  intro steps
  induction steps with
  | zero =>
    intro j v hj Hprev Hdone
    constructor
    · intro h
      simp [innerK] at h
    · intro _ k' h1 h2 h3
      simp only [innerK]
      exact Hdone k' h1 (by omega) h3
  | succ steps ih =>
    intro j v hj Hprev Hdone
    have hjd : j ≤ d := by omega
    have hInvK : InvAt a b d (-(d : Int) + 2 * (j : Int))
        ((innerKStep a b d v j).1 (-(d : Int) + 2 * (j : Int))) := by
      refine innerKStep_inv a b d hd v j ?_ ?_
      · intro hne
        refine Hprev _ (by omega) (by omega) (by omega)
      · intro hne
        have hjlt : (j : Int) ≤ (d : Int) - 1 := by omega
        refine Hprev _ (by omega) (by omega) (by omega)
    by_cases hfound : (innerKStep a b d v j).2 = true
    · have hres : innerK a b d v j (steps + 1) = ((innerKStep a b d v j).1, true) := by
        simp only [innerK, hfound, if_pos]
      rw [hres]
      constructor
      · intro _
        have hfc := (innerKStep_found a b d v j).mp hfound
        obtain ⟨_, hreach, _⟩ := hInvK
        refine ⟨(innerKStep a b d v j).1 (-(d : Int) + 2 * (j : Int)),
          (((innerKStep a b d v j).1 (-(d : Int) + 2 * (j : Int)) : Int) -
            (-(d : Int) + 2 * (j : Int))).toNat, hreach, hfc.1, by omega⟩
      · intro h
        simp at h
    · have hfound' : (innerKStep a b d v j).2 = false := by
        simpa using hfound
      have hres : innerK a b d v j (steps + 1) =
          innerK a b d (innerKStep a b d v j).1 (j + 1) steps := by
        simp only [innerK, hfound']
        simp
      rw [hres]
      refine ih (j + 1) (innerKStep a b d v j).1 (by omega) ?_ ?_
      · intro k' h1 h2 h3
        rw [innerKStep_other a b d v j k' (by omega)]
        exact Hprev k' h1 h2 h3
      · intro k' h1 h2 h3
        by_cases hk' : k' = -(d : Int) + 2 * (j : Int)
        · subst hk'
          refine ⟨hInvK, ?_⟩
          intro hcontra
          exact (by simp [hfound'] : ¬(innerKStep a b d v j).2 = true)
            ((innerKStep_found a b d v j).mpr hcontra)
        · rw [innerKStep_other a b d v j k' hk']
          exact Hdone k' h1 (by omega) h3

/-! ### The outer loop returns exactly the minimal edit count -/

theorem innerKStep_inv_zero (a b : List Int) (v : Int → Nat) (hv : v 1 = 0) :
    InvAt a b 0 0 ((innerKStep a b 0 v 0).1 0) := by
  have hval : (innerKStep a b 0 v 0).1 0 = slide a b a.length 0 0 := by
    simp [innerKStep, hv]
  rw [hval]
  obtain ⟨t, ht1, ht2⟩ := slide_seg a.length 0 0 0 Seg.base
  simp only [Nat.zero_add] at ht1 ht2
  have hds : slide a b a.length 0 0 = slide a b a.length 0 ((0 : Nat) : Int) := by
    norm_num
  rw [hds, ht1]
  refine ⟨by omega, ?_, ?_⟩
  · have : ((t : Int) - 0).toNat = t := by omega
    rw [this]
    exact ht2
  · intro x y hxy hr
    obtain ⟨hxyeq, hrun⟩ := reach_zero hr
    subst hxyeq
    rcases Nat.eq_zero_or_pos x with hx0 | hx0
    · omega
    · have hxn : x ≤ a.length := by
        have := hrun (x - 1) (by omega)
        omega
      have hsm : x ≤ slide a b a.length 0 ((0 : Nat) : Int) := by
        refine @slide_max a b a.length 0 ((0 : Nat) : Int) x (by omega)
          (by omega) ?_
        intro t' ht'
        have hcond := hrun t' (by omega)
        refine ⟨by omega, by omega, by omega, ?_⟩
        have htn : (((0 : Nat) : Int) + (t' : Int)).toNat = t' := by omega
        rw [htn]
        simpa using hcond.2.2
      omega

theorem myersMain_spec (a b : List Int) :
    ∀ (fuel d : Nat) (v : Int → Nat), 1 ≤ d →
    fuel + d = a.length + b.length + 1 →
    d ≤ (a.length - lcsLen a b) + (b.length - lcsLen a b) →
    (∀ k' : Int, -(d : Int) + 1 ≤ k' → k' ≤ (d : Int) - 1 →
      (k' + d) % 2 = 1 → InvAt a b (d - 1) k' (v k')) →
    myersMain a b fuel d v =
      (a.length - lcsLen a b) + (b.length - lcsLen a b) := by
  intro fuel
  induction fuel with
  | zero =>
    intro d v hd hfuel hdle _
    exact absurd hfuel (by omega)
  | succ fuel ih =>
    intro d v hd hfuel hdle Hprev
    have hL1 := lcsLen_le_left a b
    have hL2 := lcsLen_le_right a b
    have hspec := innerK_spec a b d hd (d + 1) 0 v (by omega) Hprev
      (by intro k' h1 h2 h3; omega)
    simp only [myersMain]
    by_cases hfound : (innerK a b d v 0 (d + 1)).2 = true
    · rw [hfound]
      simp only [if_pos]
      obtain ⟨x, y, hr, hx, hy⟩ := hspec.1 hfound
      have := reach_lower_bound hr hx hy
      omega
    · have hfound' : (innerK a b d v 0 (d + 1)).2 = false := by simpa using hfound
      rw [hfound']
      simp only [Bool.false_eq_true, if_false]
      have hpost := hspec.2 hfound'
      have hne : d ≠ (a.length - lcsLen a b) + (b.length - lcsLen a b) := by
        intro hdm
        have hrl := reach_lcs a b
        rw [← hdm] at hrl
        have hkstar := hpost ((a.length : Int) - (b.length : Int))
          (by omega) (by omega) (by omega)
        obtain ⟨⟨hle, hreach, hcomp⟩, hnot⟩ := hkstar
        have hxv := hcomp a.length b.length (by omega) hrl
        exact hnot ⟨hxv, by omega⟩
      refine ih (d + 1) (innerK a b d v 0 (d + 1)).1 (by omega) (by omega)
        (by omega) ?_
      intro k' h1 h2 h3
      have := (hpost k' (by omega) (by omega) (by omega)).1
      simpa using this

/-- The Myers search computes exactly total length minus twice the LCS
length. -/
theorem myersEditDistance_eq (a b : List Int) :
    myersEditDistance a b =
      (a.length - lcsLen a b) + (b.length - lcsLen a b) := by
  have hL1 := lcsLen_le_left a b
  have hL2 := lcsLen_le_right a b
  unfold myersEditDistance
  by_cases hn : a.length = 0
  · rw [if_pos hn]
    omega
  · rw [if_neg hn]
    by_cases hm : b.length = 0
    · rw [if_pos hm]
      omega
    · rw [if_neg hm]
      have hInv0 : InvAt a b 0 0 ((innerKStep a b 0 (fun _ => 0) 0).1 0) :=
        innerKStep_inv_zero a b (fun _ => 0) rfl
      have hk0 : -((0 : Nat) : Int) + 2 * ((0 : Nat) : Int) = 0 := by norm_num
      have hik : innerK a b 0 (fun _ => 0) 0 1 =
          (if (innerKStep a b 0 (fun _ => 0) 0).2 then
            ((innerKStep a b 0 (fun _ => 0) 0).1, true)
          else ((innerKStep a b 0 (fun _ => 0) 0).1, false)) := by
        simp only [innerK]
      simp only [myersMain, hik]
      by_cases hf : (innerKStep a b 0 (fun _ => 0) 0).2 = true
      · simp only [hf, if_true]
        have hfc := (innerKStep_found a b 0 (fun _ => 0) 0).mp hf
        rw [hk0] at hfc
        obtain ⟨_, hreach, _⟩ := hInv0
        have hreach' : Reach a b 0
            ((innerKStep a b 0 (fun _ => 0) 0).1 0)
            ((innerKStep a b 0 (fun _ => 0) 0).1 0) := by
          have heq : (((innerKStep a b 0 (fun _ => 0) 0).1 0 : Int) -
              (0 : Int)).toNat = (innerKStep a b 0 (fun _ => 0) 0).1 0 := by
            omega
          rwa [heq] at hreach
        have hlow := reach_lower_bound hreach' hfc.1 (by omega)
        omega
      · have hf' : (innerKStep a b 0 (fun _ => 0) 0).2 = false := by
          simpa using hf
        rw [hf']
        simp only [Bool.false_eq_true, if_false]
        have hone : 1 ≤ (a.length - lcsLen a b) + (b.length - lcsLen a b) := by
          by_contra hzero
          have hmin0 : (a.length - lcsLen a b) + (b.length - lcsLen a b) = 0 := by
            omega
          have hrl := reach_lcs a b
          rw [hmin0] at hrl
          obtain ⟨_, _, hcomp⟩ := hInv0
          have hxv := hcomp a.length b.length (by omega) hrl
          have : (innerKStep a b 0 (fun _ => 0) 0).2 = true := by
            refine (innerKStep_found a b 0 (fun _ => 0) 0).mpr ?_
            rw [hk0]
            exact ⟨hxv, by omega⟩
          exact hf this
        refine myersMain_spec a b (a.length + b.length) (0 + 1)
          (innerKStep a b 0 (fun _ => 0) 0).1 (by omega) (by omega)
          (by omega) ?_
        intro k' h1 h2 h3
        have hk'0 : k' = 0 := by omega
        subst hk'0
        simpa using hInv0

/-! ### Tokenization assigns equal identifiers exactly to equal lines -/

theorem dictLookup_mem : ∀ (dict : List (List Char × Int)) (s : List Char)
    (i : Int), dictLookup dict s = some i → (s, i) ∈ dict := by
  intro dict
  induction dict with
  | nil => intro s i h; simp [dictLookup] at h
  | cons p rest ih =>
    intro s i h
    obtain ⟨t, j⟩ := p
    simp only [dictLookup] at h
    by_cases hts : t = s
    · rw [if_pos hts] at h
      cases h
      cases hts
      exact List.mem_cons_self _ _
    · rw [if_neg hts] at h
      exact List.mem_cons_of_mem _ (ih s i h)

theorem dictLookup_none_not_mem :
    ∀ (dict : List (List Char × Int)) (s : List Char),
    dictLookup dict s = none → ∀ i : Int, (s, i) ∉ dict := by
  intro dict
  induction dict with
  | nil => intro s _ i h; simp at h
  | cons p rest ih =>
    intro s h i hmem
    obtain ⟨t, j⟩ := p
    simp only [dictLookup] at h
    by_cases hts : t = s
    · rw [if_pos hts] at h; cases h
    · rw [if_neg hts] at h
      rcases List.mem_cons.mp hmem with heq | hmem'
      · cases heq; exact hts rfl
      · exact ih s h i hmem'

theorem dictLookup_append_some :
    ∀ (dict ext : List (List Char × Int)) (s : List Char) (i : Int),
    dictLookup dict s = some i → dictLookup (dict ++ ext) s = some i := by
  intro dict ext
  induction dict with
  | nil => intro s i h; simp [dictLookup] at h
  | cons p rest ih =>
    intro s i h
    obtain ⟨t, j⟩ := p
    simp only [dictLookup] at h ⊢
    by_cases hts : t = s
    · rwa [if_pos hts] at h ⊢
    · rw [if_neg hts] at h ⊢
      exact ih s i h

theorem dictLookup_append_none :
    ∀ (dict : List (List Char × Int)) (s : List Char) (i : Int),
    dictLookup dict s = none → dictLookup (dict ++ [(s, i)]) s = some i := by
  intro dict
  induction dict with
  | nil => intro s i _; simp [dictLookup]
  | cons p rest ih =>
    intro s i h
    obtain ⟨t, j⟩ := p
    simp only [dictLookup] at h ⊢
    by_cases hts : t = s
    · rw [if_pos hts] at h; cases h
    · rw [if_neg hts] at h ⊢
      exact ih s i h

theorem tokenizeList_spec :
    ∀ (ls : List (List Char)) (dict : List (List Char × Int)) (nextId : Int),
    (∀ p ∈ dict, p.2 < nextId) →
    (∀ p ∈ dict, ∀ q ∈ dict, p.2 = q.2 → p.1 = q.1) →
    (∀ p ∈ (tokenizeList dict nextId ls).1, p.2 < (tokenizeList dict nextId ls).2.1) ∧
    (∀ p ∈ (tokenizeList dict nextId ls).1, ∀ q ∈ (tokenizeList dict nextId ls).1,
      p.2 = q.2 → p.1 = q.1) ∧
    (∀ (s : List Char) (i : Int), dictLookup dict s = some i →
      dictLookup (tokenizeList dict nextId ls).1 s = some i) ∧
    List.Forall₂ (fun s t => dictLookup (tokenizeList dict nextId ls).1 s = some t)
      ls (tokenizeList dict nextId ls).2.2 := by
  intro ls
  induction ls with
  | nil =>
    intro dict nextId hbound hinj
    exact ⟨hbound, hinj, fun s i h => h, List.Forall₂.nil⟩
  | cons s rest ih =>
    intro dict nextId hbound hinj
    cases hlook : dictLookup dict s with
    | some id =>
      have hrec := ih dict nextId hbound hinj
      simp only [tokenizeList, hlook]
      exact ⟨hrec.1, hrec.2.1, hrec.2.2.1,
        List.Forall₂.cons (hrec.2.2.1 s id hlook) hrec.2.2.2⟩
    | none =>
      have hbound' : ∀ p ∈ dict ++ [(s, nextId)], p.2 < nextId + 1 := by
        intro p hp
        rcases List.mem_append.mp hp with hp' | hp'
        · have := hbound p hp'; omega
        · simp at hp'; rw [hp']; omega
      have hinj' : ∀ p ∈ dict ++ [(s, nextId)], ∀ q ∈ dict ++ [(s, nextId)],
          p.2 = q.2 → p.1 = q.1 := by
        intro p hp q hq hpq
        rcases List.mem_append.mp hp with hp' | hp' <;>
          rcases List.mem_append.mp hq with hq' | hq'
        · exact hinj p hp' q hq' hpq
        · simp at hq'
          have := hbound p hp'
          rw [hq'] at hpq
          simp at hpq
          omega
        · simp at hp'
          have := hbound q hq'
          rw [hp'] at hpq
          simp at hpq
          omega
        · simp at hp' hq'
          rw [hp', hq']
      have hrec := ih (dict ++ [(s, nextId)]) (nextId + 1) hbound' hinj'
      simp only [tokenizeList, hlook]
      refine ⟨hrec.1, hrec.2.1, ?_, ?_⟩
      · intro s' i h
        exact hrec.2.2.1 s' i (dictLookup_append_some dict [(s, nextId)] s' i h)
      · refine List.Forall₂.cons ?_ hrec.2.2.2
        exact hrec.2.2.1 s nextId (dictLookup_append_none dict s nextId hlook)

theorem tokenizePair_spec (aL bL : List (List Char)) :
    ∃ dict : List (List Char × Int),
      (∀ p ∈ dict, ∀ q ∈ dict, p.2 = q.2 → p.1 = q.1) ∧
      List.Forall₂ (fun s t => dictLookup dict s = some t) aL
        (tokenizePair aL bL).1 ∧
      List.Forall₂ (fun s t => dictLookup dict s = some t) bL
        (tokenizePair aL bL).2 := by
  have hA := tokenizeList_spec aL [] 1 (by simp) (by simp)
  have hB := tokenizeList_spec bL (tokenizeList [] 1 aL).1
    (tokenizeList [] 1 aL).2.1 hA.1 hA.2.1
  refine ⟨(tokenizeList (tokenizeList [] 1 aL).1 (tokenizeList [] 1 aL).2.1 bL).1,
    hB.2.1, ?_, ?_⟩
  · have := hA.2.2.2
    simp only [tokenizePair]
    refine List.Forall₂.imp ?_ this
    intro s t h
    exact hB.2.2.1 s t h
  · simp only [tokenizePair]
    exact hB.2.2.2

theorem lcsLen_rel {α β : Type} [DecidableEq α] [DecidableEq β]
    (R : α → β → Prop)
    (hR : ∀ x x' y y', R x x' → R y y' → (x = y ↔ x' = y')) :
    ∀ (a b : List α) (a' b' : List β), List.Forall₂ R a a' →
      List.Forall₂ R b b' → lcsLen a b = lcsLen a' b' := by
  intro a b
  induction a, b using lcsLen.induct with
  | case1 b =>
    intro a' b' ha hb
    cases ha
    simp [lcsLen]
  | case2 x xs =>
    intro a' b' ha hb
    cases hb
    cases ha
    rw [lcsLen_nil_right, lcsLen_nil_right]
  | case3 xs y ys ih =>
    intro a' b' ha hb
    cases ha with
    | cons hx hxs =>
      cases hb with
      | cons hy hys =>
        rename_i x' xs' y' ys'
        have hxy : x' = y' := (hR y x' y y' hx hy).mp rfl
        subst hxy
        rw [lcsLen_cons_self, lcsLen_cons_self, ih _ _ hxs hys]
  | case4 x xs y ys h ih1 ih2 =>
    intro a' b' ha hb
    cases ha with
    | cons hx hxs =>
      cases hb with
      | cons hy hys =>
        rename_i x' xs' y' ys'
        have hxy : ¬x' = y' := fun he => h ((hR x x' y y' hx hy).mpr he)
        rw [lcsLen_cons_ne h, lcsLen_cons_ne hxy,
          ih1 _ _ (List.Forall₂.cons hx hxs) hys,
          ih2 _ _ hxs (List.Forall₂.cons hy hys)]

theorem tokenizePair_lcs (aL bL : List (List Char)) :
    lcsLen (tokenizePair aL bL).1 (tokenizePair aL bL).2 = lcsLen aL bL := by
  obtain ⟨dict, hinj, hfa, hfb⟩ := tokenizePair_spec aL bL
  refine (lcsLen_rel (fun s t => dictLookup dict s = some t) ?_ aL bL _ _
    hfa hfb).symm
  intro x x' y y' hx hy
  constructor
  · intro hxy
    subst hxy
    rw [hx] at hy
    exact (Option.some.injEq _ _ ▸ hy)
  · intro hxy
    subst hxy
    exact hinj (x, x') (dictLookup_mem dict x x' hx) (y, x')
      (dictLookup_mem dict y x' hy) rfl

theorem tokenizeList_len :
    ∀ (ls : List (List Char)) (dict : List (List Char × Int)) (n : Int),
    (tokenizeList dict n ls).2.2.length = ls.length := by
  intro ls
  induction ls with
  | nil => intro dict n; simp [tokenizeList]
  | cons s rest ih =>
    intro dict n
    cases hlook : dictLookup dict s with
    | some id => simp [tokenizeList, hlook, ih]
    | none => simp [tokenizeList, hlook, ih]

theorem tokenizePair_len (aL bL : List (List Char)) :
    (tokenizePair aL bL).1.length = aL.length ∧
    (tokenizePair aL bL).2.length = bL.length := by
  simp [tokenizePair, tokenizeList_len]

/-! ### Trimming lemmas: symmetry and behaviour on equal inputs -/

theorem commonPrefixLen_self : ∀ l : List (List Char),
    commonPrefixLen l l = l.length := by
  intro l
  induction l with
  | nil => simp [commonPrefixLen]
  | cons x xs ih => simp [commonPrefixLen, ih]

theorem commonPrefixLen_comm : ∀ a b : List (List Char),
    commonPrefixLen a b = commonPrefixLen b a := by
  intro a
  induction a with
  | nil =>
    intro b
    cases b <;> simp [commonPrefixLen]
  | cons x xs ih =>
    intro b
    cases b with
    | nil => simp [commonPrefixLen]
    | cons y ys =>
      simp only [commonPrefixLen]
      by_cases hxy : x = y
      · rw [if_pos hxy, if_pos hxy.symm, ih ys]
      · rw [if_neg hxy, if_neg (fun h => hxy h.symm)]

theorem suffixStop_swap (a b : List (List Char)) (s₁ s₂ : Nat) :
    ∀ (fuel : Nat) (aE bE : Int),
    suffixStop b a s₂ s₁ fuel bE aE =
      ((suffixStop a b s₁ s₂ fuel aE bE).2, (suffixStop a b s₁ s₂ fuel aE bE).1) := by
  intro fuel
  induction fuel with
  | zero => intro aE bE; simp [suffixStop]
  | succ fuel ih =>
    intro aE bE
    simp only [suffixStop]
    by_cases h : (s₁ : Int) ≤ aE ∧ (s₂ : Int) ≤ bE ∧
        a.getD aE.toNat [] = b.getD bE.toNat []
    · rw [if_pos h, if_pos ⟨h.2.1, h.1, h.2.2.symm⟩, ih]
    · rw [if_neg h, if_neg (fun h' => h ⟨h'.2.1, h'.1, h'.2.2.symm⟩)]

theorem suffixStop_fuel (a b : List (List Char)) (s₁ s₂ : Nat) :
    ∀ (f₁ f₂ : Nat) (aE bE : Int),
    min (aE - (s₁ : Int) + 1) (bE - (s₂ : Int) + 1) ≤ (f₁ : Int) →
    min (aE - (s₁ : Int) + 1) (bE - (s₂ : Int) + 1) ≤ (f₂ : Int) →
    suffixStop a b s₁ s₂ f₁ aE bE = suffixStop a b s₁ s₂ f₂ aE bE := by
  intro f₁
  induction f₁ with
  | zero =>
    intro f₂ aE bE h₁ h₂
    have hstop : ¬((s₁ : Int) ≤ aE ∧ (s₂ : Int) ≤ bE ∧
        a.getD aE.toNat [] = b.getD bE.toNat []) := by
      intro h
      omega
    cases f₂ with
    | zero => rfl
    | succ f₂ =>
      simp only [suffixStop]
      rw [if_neg hstop]
  | succ f₁ ih =>
    intro f₂ aE bE h₁ h₂
    cases f₂ with
    | zero =>
      have hstop : ¬((s₁ : Int) ≤ aE ∧ (s₂ : Int) ≤ bE ∧
          a.getD aE.toNat [] = b.getD bE.toNat []) := by
        intro h
        omega
      simp only [suffixStop]
      rw [if_neg hstop]
    | succ f₂ =>
      simp only [suffixStop]
      by_cases h : (s₁ : Int) ≤ aE ∧ (s₂ : Int) ≤ bE ∧
          a.getD aE.toNat [] = b.getD bE.toNat []
      · rw [if_pos h, if_pos h]
        exact ih f₂ (aE - 1) (bE - 1) (by omega) (by omega)
      · rw [if_neg h, if_neg h]

theorem trimmedSlices_self : ∀ l : List (List Char),
    trimmedSlices l l = ([], []) := by
  intro l
  simp only [trimmedSlices, commonPrefixLen_self]
  cases hl : l.length with
  | zero =>
    have hnil : l = [] := List.length_eq_zero.mp hl
    subst hnil
    simp [suffixStop]
  | succ k =>
    have hstop : suffixStop l l (k + 1) (k + 1) (k + 1)
        (((k + 1 : Nat) : Int) - 1) (((k + 1 : Nat) : Int) - 1) =
        (((k + 1 : Nat) : Int) - 1, ((k + 1 : Nat) : Int) - 1) := by
      simp only [suffixStop]
      rw [if_neg]
      intro h
      have := h.1
      omega
    rw [hstop]
    have htn : ((((k + 1 : Nat) : Int) - 1) + 1).toNat = k + 1 := by omega
    simp only [htn]
    have h1 : (List.take (k + 1) l).length ≤ k + 1 := by
      rw [List.length_take]
      omega
    rw [List.drop_eq_nil_of_le h1]

theorem trimmedSlices_swap (aN bN : List (List Char)) :
    trimmedSlices bN aN = ((trimmedSlices aN bN).2, (trimmedSlices aN bN).1) := by
  simp only [trimmedSlices, commonPrefixLen_comm bN aN]
  rw [suffixStop_swap aN bN (commonPrefixLen aN bN) (commonPrefixLen aN bN)
    bN.length ((aN.length : Int) - 1) ((bN.length : Int) - 1)]
  rw [suffixStop_fuel aN bN (commonPrefixLen aN bN) (commonPrefixLen aN bN)
    bN.length aN.length ((aN.length : Int) - 1) ((bN.length : Int) - 1)
    (by omega) (by omega)]

/-! ### Closed form of computeDiffCounts through the line-level LCS -/

theorem computeDiffCounts_closed (A B : List Char) (w : Bool) :
    computeDiffCounts A B w =
      ⟨((trimmedSlices (normedLines A w) (normedLines B w)).2.length : Int) -
        (lcsLen (trimmedSlices (normedLines A w) (normedLines B w)).1
          (trimmedSlices (normedLines A w) (normedLines B w)).2 : Nat),
       ((trimmedSlices (normedLines A w) (normedLines B w)).1.length : Int) -
        (lcsLen (trimmedSlices (normedLines A w) (normedLines B w)).1
          (trimmedSlices (normedLines A w) (normedLines B w)).2 : Nat)⟩ := by
  have hL1 := lcsLen_le_left (trimmedSlices (normedLines A w) (normedLines B w)).1
    (trimmedSlices (normedLines A w) (normedLines B w)).2
  have hL2 := lcsLen_le_right (trimmedSlices (normedLines A w) (normedLines B w)).1
    (trimmedSlices (normedLines A w) (normedLines B w)).2
  simp only [computeDiffCounts]
  split
  · rename_i hzero
    have hz1 := hzero.1
    have hz2 := hzero.2
    congr 1 <;> omega
  · have hlen := tokenizePair_len
      (trimmedSlices (normedLines A w) (normedLines B w)).1
      (trimmedSlices (normedLines A w) (normedLines B w)).2
    have hlcs := tokenizePair_lcs
      (trimmedSlices (normedLines A w) (normedLines B w)).1
      (trimmedSlices (normedLines A w) (normedLines B w)).2
    have hD := myersEditDistance_eq
      (tokenizePair (trimmedSlices (normedLines A w) (normedLines B w)).1
        (trimmedSlices (normedLines A w) (normedLines B w)).2).1
      (tokenizePair (trimmedSlices (normedLines A w) (normedLines B w)).1
        (trimmedSlices (normedLines A w) (normedLines B w)).2).2
    rw [hlen.1, hlen.2, hlcs] at hD
    congr 1 <;> rw [hD] <;> omega

/-- Any two texts whose prepared line lists coincide diff to zero
counts: the trim consumes everything and the empty-slices branch
returns zero. -/
theorem computeDiffCounts_zero_of_norm_eq (A B : List Char) (w : Bool)
    (h : normedLines A w = normedLines B w) :
    computeDiffCounts A B w = ⟨0, 0⟩ := by
  rw [computeDiffCounts_closed, h, trimmedSlices_self]
  simp [lcsLen]

/-- C3: myersEditDistance a b is the minimum number of insertions plus
deletions (no substitutions) needed to transform a into b — the least
edit count with which the terminal corner of the edit graph is reachable
— and equals the total length minus twice the longest-common-subsequence
length, lcsLen being the greatest length of a common subsequence. -/
theorem myersEditDistance_minimal (a b : List Int) :
    IsLeast {d : Nat | Reach a b d a.length b.length} (myersEditDistance a b) ∧
    myersEditDistance a b = a.length + b.length - 2 * lcsLen a b ∧
    IsGreatest {l : Nat | ∃ c : List Int, c <+ a ∧ c <+ b ∧ c.length = l}
      (lcsLen a b) := by
  have hL1 := lcsLen_le_left a b
  have hL2 := lcsLen_le_right a b
  have hmyers := myersEditDistance_eq a b
  refine ⟨⟨?_, ?_⟩, by omega, ?_, ?_⟩
  · show Reach a b (myersEditDistance a b) a.length b.length
    have := reach_lcs a b
    rwa [← hmyers] at this
  · intro d hd
    have := reach_lower_bound hd (le_refl _) (le_refl _)
    omega
  · exact lcsLen_witness a b
  · rintro l ⟨c, hca, hcb, hlen⟩
    exact hlen ▸ lcsLen_upper a b c hca hcb

/-- Witness for C3 at a concrete input. -/
theorem myersEditDistance_minimal_witness :
    IsLeast {d : Nat | Reach ([1, 2, 3] : List Int) [2, 3, 4] d 3 3}
      (myersEditDistance [1, 2, 3] [2, 3, 4]) ∧
    myersEditDistance [1, 2, 3] [2, 3, 4] =
      3 + 3 - 2 * lcsLen ([1, 2, 3] : List Int) [2, 3, 4] ∧
    IsGreatest {l : Nat | ∃ c : List Int, c <+ [1, 2, 3] ∧ c <+ [2, 3, 4] ∧
      c.length = l} (lcsLen ([1, 2, 3] : List Int) [2, 3, 4]) := by
  simpa using myersEditDistance_minimal [1, 2, 3] [2, 3, 4]

/-- C4: computeDiffCounts derives its counts as removed equal to n minus
LCS and added equal to m minus LCS, with the LCS length recovered
exactly (no truncation) from the edit distance by the halving
LCS = (n + m - D) / 2, over the trimmed slices of lengths n and m; both
counts are non-negative. -/
theorem computeDiffCounts_lcs_form (A B : List Char) (w : Bool) :
    ∃ L : Nat,
      computeDiffCounts A B w =
        ⟨((trimmedSlices (normedLines A w) (normedLines B w)).2.length : Int) - L,
         ((trimmedSlices (normedLines A w) (normedLines B w)).1.length : Int) - L⟩ ∧
      2 * L + myersEditDistance
          (tokenizePair (trimmedSlices (normedLines A w) (normedLines B w)).1
            (trimmedSlices (normedLines A w) (normedLines B w)).2).1
          (tokenizePair (trimmedSlices (normedLines A w) (normedLines B w)).1
            (trimmedSlices (normedLines A w) (normedLines B w)).2).2 =
        (trimmedSlices (normedLines A w) (normedLines B w)).1.length +
        (trimmedSlices (normedLines A w) (normedLines B w)).2.length ∧
      L ≤ (trimmedSlices (normedLines A w) (normedLines B w)).1.length ∧
      L ≤ (trimmedSlices (normedLines A w) (normedLines B w)).2.length ∧
      0 ≤ (computeDiffCounts A B w).added ∧
      0 ≤ (computeDiffCounts A B w).removed := by
  have hL1 := lcsLen_le_left (trimmedSlices (normedLines A w) (normedLines B w)).1
    (trimmedSlices (normedLines A w) (normedLines B w)).2
  have hL2 := lcsLen_le_right (trimmedSlices (normedLines A w) (normedLines B w)).1
    (trimmedSlices (normedLines A w) (normedLines B w)).2
  have hlen := tokenizePair_len
    (trimmedSlices (normedLines A w) (normedLines B w)).1
    (trimmedSlices (normedLines A w) (normedLines B w)).2
  have hlcs := tokenizePair_lcs
    (trimmedSlices (normedLines A w) (normedLines B w)).1
    (trimmedSlices (normedLines A w) (normedLines B w)).2
  have hD := myersEditDistance_eq
    (tokenizePair (trimmedSlices (normedLines A w) (normedLines B w)).1
      (trimmedSlices (normedLines A w) (normedLines B w)).2).1
    (tokenizePair (trimmedSlices (normedLines A w) (normedLines B w)).1
      (trimmedSlices (normedLines A w) (normedLines B w)).2).2
  rw [hlen.1, hlen.2, hlcs] at hD
  have hclosed := computeDiffCounts_closed A B w
  refine ⟨lcsLen (trimmedSlices (normedLines A w) (normedLines B w)).1
    (trimmedSlices (normedLines A w) (normedLines B w)).2,
    hclosed, by omega, hL1, hL2, ?_, ?_⟩
  · rw [hclosed]; simp; omega
  · rw [hclosed]; simp; omega

/-- C6: swapping the two texts swaps added and removed, and identical
texts always yield zero counts. -/
theorem computeDiffCounts_symm (A B : List Char) (w : Bool) :
    (computeDiffCounts A B w).added = (computeDiffCounts B A w).removed ∧
    (computeDiffCounts A B w).removed = (computeDiffCounts B A w).added ∧
    computeDiffCounts A A w = ⟨0, 0⟩ := by
  have hswap := trimmedSlices_swap (normedLines A w) (normedLines B w)
  have hAB := computeDiffCounts_closed A B w
  have hBA := computeDiffCounts_closed B A w
  rw [hswap] at hBA
  have hcomm := lcsLen_comm (trimmedSlices (normedLines A w) (normedLines B w)).2
    (trimmedSlices (normedLines A w) (normedLines B w)).1
  refine ⟨?_, ?_, ?_⟩
  · rw [hAB, hBA]
    simp [hcomm]
  · rw [hAB, hBA]
    simp [hcomm]
  · exact computeDiffCounts_zero_of_norm_eq A A w rfl

/-- Witness for C6 at a concrete input. -/
theorem computeDiffCounts_symm_witness :
    (computeDiffCounts ("x\ny\n".toList) ("x\nz\n".toList) false).added =
      (computeDiffCounts ("x\nz\n".toList) ("x\ny\n".toList) false).removed ∧
    (computeDiffCounts ("x\ny\n".toList) ("x\nz\n".toList) false).removed =
      (computeDiffCounts ("x\nz\n".toList) ("x\ny\n".toList) false).added ∧
    computeDiffCounts ("x\ny\n".toList) ("x\ny\n".toList) false = ⟨0, 0⟩ :=
  computeDiffCounts_symm ("x\ny\n".toList) ("x\nz\n".toList) false

/-! ### The collapse-and-trim normalization is determined by the word
sequence -/

theorem jsWs_sp : jsWs spCh = true := by decide

theorem collapseAux_true_dropWhile :
    ∀ l : List Char, collapseAux true l = collapseAux false (l.dropWhile jsWs) := by
  intro l
  induction l with
  | nil => simp [collapseAux]
  | cons c rest ih =>
    by_cases h : jsWs c
    · rw [List.dropWhile_cons_of_pos h]
      simp only [collapseAux, h, if_true, if_pos]
      exact ih
    · rw [List.dropWhile_cons_of_neg h]
      simp only [collapseAux]
      rw [if_neg (by simpa using h), if_neg (by simpa using h)]

theorem collapseAux_true_head :
    ∀ (l : List Char) (c : Char) (rest : List Char),
    collapseAux true l = c :: rest → jsWs c = false := by
  intro l
  induction l with
  | nil => intro c rest h; simp [collapseAux] at h
  | cons c' l' ih =>
    intro c rest h
    by_cases hc' : jsWs c'
    · simp only [collapseAux, hc', if_true, if_pos] at h
      exact ih c rest h
    · simp only [collapseAux] at h
      rw [if_neg (by simpa using hc')] at h
      rcases List.cons_eq_cons.mp h with ⟨h1, _⟩
      rw [← h1]
      simpa using hc'

theorem dropWhile_collapseAux_true (l : List Char) :
    (collapseAux true l).dropWhile jsWs = collapseAux true l := by
  cases hc : collapseAux true l with
  | nil => simp
  | cons c rest =>
    have := collapseAux_true_head l c rest hc
    rw [List.dropWhile_cons_of_neg (by simp [this])]

theorem trimStart_collapse (l : List Char) :
    trimStart (collapseAux false l) = collapseAux false (l.dropWhile jsWs) := by
  cases l with
  | nil => simp [collapseAux, trimStart]
  | cons c rest =>
    by_cases h : jsWs c
    · rw [List.dropWhile_cons_of_pos h]
      have h1 : collapseAux false (c :: rest) = spCh :: collapseAux true rest := by
        simp only [collapseAux]
        rw [if_pos h, if_neg (by simp)]
      rw [h1]
      unfold trimStart
      rw [List.dropWhile_cons_of_pos jsWs_sp, dropWhile_collapseAux_true rest]
      exact collapseAux_true_dropWhile rest
    · rw [List.dropWhile_cons_of_neg h]
      have h1 : collapseAux false (c :: rest) = c :: collapseAux false rest := by
        simp only [collapseAux]
        rw [if_neg (by simpa using h)]
      rw [h1]
      unfold trimStart
      rw [List.dropWhile_cons_of_neg (by simpa using h)]

theorem trimEnd_nil : trimEnd [] = [] := by simp [trimEnd]

theorem trimEnd_cons_ws (c : Char) (X : List Char) (h : jsWs c = true) :
    trimEnd (c :: X) = if trimEnd X = [] then [] else c :: trimEnd X := by
  unfold trimEnd
  rw [List.reverse_cons, List.dropWhile_append]
  by_cases he : (X.reverse.dropWhile jsWs).isEmpty
  · rw [if_pos he]
    have hnil : X.reverse.dropWhile jsWs = [] := by
      simpa [List.isEmpty_iff] using he
    rw [hnil]
    simp [List.dropWhile_cons, h]
  · rw [if_neg he]
    have hne : X.reverse.dropWhile jsWs ≠ [] := by
      simpa [List.isEmpty_iff] using he
    rw [if_neg (by simpa using hne)]
    simp

theorem trimEnd_cons_nonws (c : Char) (X : List Char) (h : jsWs c = false) :
    trimEnd (c :: X) = c :: trimEnd X := by
  unfold trimEnd
  rw [List.reverse_cons, List.dropWhile_append]
  by_cases he : (X.reverse.dropWhile jsWs).isEmpty
  · rw [if_pos he]
    have hnil : X.reverse.dropWhile jsWs = [] := by
      simpa [List.isEmpty_iff] using he
    rw [hnil]
    simp [List.dropWhile_cons, h]
  · rw [if_neg he]
    simp

theorem length_dropWhile_le {p : Char → Bool} :
    ∀ l : List Char, (l.dropWhile p).length ≤ l.length := by
  intro l
  induction l with
  | nil => simp
  | cons c rest ih =>
    by_cases h : p c
    · rw [List.dropWhile_cons_of_pos h]
      exact le_trans ih (by simp)
    · rw [List.dropWhile_cons_of_neg h]

theorem wordsOfF_fuel :
    ∀ (f₁ f₂ : Nat) (l : List Char), l.length < f₁ → l.length < f₂ →
    wordsOfF f₁ l = wordsOfF f₂ l := by
  intro f₁
  induction f₁ with
  | zero => intro f₂ l h₁ _; omega
  | succ f₁ ih =>
    intro f₂ l h₁ h₂
    cases l with
    | nil => cases f₂ with
      | zero => omega
      | succ f₂ => simp [wordsOfF]
    | cons c rest =>
      cases f₂ with
      | zero => omega
      | succ f₂ =>
        simp only [wordsOfF]
        by_cases h : jsWs c
        · rw [if_pos h, if_pos h]
          have hlen : ((c :: rest).dropWhile jsWs).length ≤ rest.length := by
            rw [List.dropWhile_cons_of_pos h]
            exact length_dropWhile_le rest
          exact ih f₂ _ (by simp at h₁ ⊢; omega) (by simp at h₂ ⊢; omega)
        · rw [if_neg h, if_neg h]
          have hlen : ((c :: rest).dropWhile (fun d => !jsWs d)).length ≤
              rest.length := by
            rw [List.dropWhile_cons_of_pos (by simpa using h)]
            exact length_dropWhile_le rest
          rw [ih f₂ _ (by simp at h₁ ⊢; omega) (by simp at h₂ ⊢; omega)]

theorem wordsOf_ws_head (c : Char) (rest : List Char) (h : jsWs c = true) :
    wordsOf (c :: rest) = wordsOf (rest.dropWhile jsWs) := by
  unfold wordsOf
  simp only [wordsOfF, List.length_cons]
  rw [if_pos h, List.dropWhile_cons_of_pos h]
  exact wordsOfF_fuel (rest.length + 1) ((rest.dropWhile jsWs).length + 1) _
    (by have := length_dropWhile_le (p := jsWs) rest; omega) (by omega)

theorem wordsOf_nonws_head (c : Char) (rest : List Char) (h : jsWs c = false) :
    wordsOf (c :: rest) =
      (c :: rest.takeWhile (fun d => !jsWs d)) ::
        wordsOf (rest.dropWhile (fun d => !jsWs d)) := by
  unfold wordsOf
  simp only [wordsOfF, List.length_cons]
  rw [if_neg (by simp [h]), List.takeWhile_cons_of_pos (by simp [h]),
    List.dropWhile_cons_of_pos (by simp [h])]
  congr 1
  exact wordsOfF_fuel (rest.length + 1)
    ((rest.dropWhile (fun d => !jsWs d)).length + 1) _
    (by have := length_dropWhile_le (p := fun d => !jsWs d) rest; omega)
    (by omega)

theorem wordsOf_dropWhile (l : List Char) :
    wordsOf (l.dropWhile jsWs) = wordsOf l := by
  cases l with
  | nil => simp
  | cons c rest =>
    by_cases h : jsWs c
    · rw [List.dropWhile_cons_of_pos h, wordsOf_ws_head c rest h]
    · rw [List.dropWhile_cons_of_neg h]

theorem wordsOf_nil : wordsOf [] = [] := by simp [wordsOf, wordsOfF]

theorem jsWs_headD_dropWhile :
    ∀ l : List Char, l.dropWhile jsWs = [] ∨
      jsWs ((l.dropWhile jsWs).headD spCh) = false := by
  intro l
  induction l with
  | nil => exact Or.inl rfl
  | cons c rest ih =>
    by_cases h : jsWs c
    · rw [List.dropWhile_cons_of_pos h]
      exact ih
    · rw [List.dropWhile_cons_of_neg h]
      right
      simpa using h

theorem joinWords_single (w : List Char) : joinWords [w] = w := by
  simp [joinWords]

theorem joinWords_cons_cons (w x : List Char) (rest : List (List Char)) :
    joinWords (w :: x :: rest) = w ++ spCh :: joinWords (x :: rest) := by
  simp [joinWords]

theorem joinWords_cons_ne_nil (c : Char) (w : List Char)
    (rest : List (List Char)) : joinWords ((c :: w) :: rest) ≠ [] := by
  cases rest with
  | nil => simp [joinWords_single]
  | cons x r => rw [joinWords_cons_cons]; simp

theorem joinWords_head_cons (c : Char) (w : List Char)
    (rest : List (List Char)) :
    joinWords ((c :: w) :: rest) = c :: joinWords (w :: rest) := by
  cases rest with
  | nil => rw [joinWords_single, joinWords_single]
  | cons x r => rw [joinWords_cons_cons, joinWords_cons_cons]; simp

theorem collapseAux_false_ws (c : Char) (rest : List Char) (h : jsWs c = true) :
    collapseAux false (c :: rest) = spCh :: collapseAux true rest := by
  simp only [collapseAux]
  rw [if_pos h, if_neg (by simp)]

theorem collapseAux_false_nonws (c : Char) (rest : List Char)
    (h : jsWs c = false) :
    collapseAux false (c :: rest) = c :: collapseAux false rest := by
  simp only [collapseAux]
  rw [if_neg (by simp [h])]

theorem trimEnd_collapse_eq :
    ∀ (n : Nat) (t : List Char), t.length ≤ n →
    trimEnd (collapseAux false t) =
      if wordsOf t = [] then []
      else if jsWs (t.headD spCh) then spCh :: joinWords (wordsOf t)
      else joinWords (wordsOf t) := by
  intro n
  induction n with
  | zero =>
    intro t ht
    have : t = [] := List.length_eq_zero.mp (by omega)
    subst this
    simp [collapseAux, trimEnd, wordsOf_nil]
  | succ n ih =>
    intro t ht
    cases t with
    | nil => simp [collapseAux, trimEnd, wordsOf_nil]
    | cons c t' =>
      by_cases hc : jsWs c
      · rw [collapseAux_false_ws c t' hc, collapseAux_true_dropWhile t']
        rw [trimEnd_cons_ws spCh _ jsWs_sp]
        have hlen : (t'.dropWhile jsWs).length ≤ n := by
          have := length_dropWhile_le (p := jsWs) t'
          simp at ht
          omega
        have hIH := ih (t'.dropWhile jsWs) hlen
        have hwords : wordsOf (c :: t') = wordsOf (t'.dropWhile jsWs) := by
          rw [wordsOf_ws_head c t' hc]
        by_cases hwnil : wordsOf (t'.dropWhile jsWs) = []
        · have hTE : trimEnd (collapseAux false (t'.dropWhile jsWs)) = [] := by
            rw [hIH, if_pos hwnil]
          rw [hTE, hwords, if_pos hwnil]
          simp
        · have hune : t'.dropWhile jsWs ≠ [] := by
            intro hu
            rw [hu, wordsOf_nil] at hwnil
            exact hwnil rfl
          have hhead : jsWs ((t'.dropWhile jsWs).headD spCh) = false := by
            rcases jsWs_headD_dropWhile t' with h | h
            · exact absurd h hune
            · exact h
          have hTE : trimEnd (collapseAux false (t'.dropWhile jsWs)) =
              joinWords (wordsOf (t'.dropWhile jsWs)) := by
            rw [hIH, if_neg hwnil, if_neg (by rw [hhead]; simp)]
          obtain ⟨c', u'', hu⟩ : ∃ c' u'', t'.dropWhile jsWs = c' :: u'' := by
            cases hdw : t'.dropWhile jsWs with
            | nil => exact absurd hdw hune
            | cons a l => exact ⟨a, l, rfl⟩
          have hc' : jsWs c' = false := by
            rw [hu] at hhead
            simpa using hhead
          have hne : joinWords (wordsOf (t'.dropWhile jsWs)) ≠ [] := by
            rw [hu, wordsOf_nonws_head c' u'' hc']
            exact joinWords_cons_ne_nil c' _ _
          rw [hTE, if_neg hne, hwords, if_neg hwnil,
            if_pos (by simp [List.headD_cons, hc])]
      · have hcf : jsWs c = false := by simpa using hc
        rw [collapseAux_false_nonws c t' hcf, trimEnd_cons_nonws c _ hcf]
        have hwords := wordsOf_nonws_head c t' hcf
        rw [hwords]
        rw [if_neg (by simp), if_neg (by simp [List.headD_cons, hcf])]
        rw [joinWords_head_cons]
        congr 1
        have hlen' : t'.length ≤ n := by simp at ht; omega
        cases t' with
        | nil =>
          simp [collapseAux, trimEnd, wordsOf_nil, joinWords_single]
        | cons c' t'' =>
          by_cases hc' : jsWs c'
          · rw [List.takeWhile_cons_of_neg (by simp [hc']),
              List.dropWhile_cons_of_neg (by simp [hc'])]
            have hIH := ih (c' :: t'') hlen'
            rw [hIH]
            by_cases hwnil : wordsOf (c' :: t'') = []
            · rw [if_pos hwnil, hwnil, joinWords_single]
            · rw [if_neg hwnil, if_pos (by simp [List.headD_cons, hc'])]
              obtain ⟨w, ws, hw⟩ : ∃ w ws, wordsOf (c' :: t'') = w :: ws := by
                cases hx : wordsOf (c' :: t'') with
                | nil => exact absurd hx hwnil
                | cons a l => exact ⟨a, l, rfl⟩
              rw [hw, joinWords_cons_cons]
              simp
          · have hcf' : jsWs c' = false := by simpa using hc'
            rw [List.takeWhile_cons_of_pos (by simp [hcf']),
              List.dropWhile_cons_of_pos (by simp [hcf'])]
            have hIH := ih (c' :: t'') hlen'
            rw [hIH]
            have hw' := wordsOf_nonws_head c' t'' hcf'
            rw [if_neg (by rw [hw']; simp),
              if_neg (by simp [List.headD_cons, hcf'])]
            rw [hw']

theorem normWs_eq_joinWords (l : List Char) :
    trimWs (collapseWs l) = joinWords (wordsOf l) := by
  unfold trimWs collapseWs
  rw [trimStart_collapse l]
  rw [trimEnd_collapse_eq (l.dropWhile jsWs).length _ (le_refl _)]
  rw [wordsOf_dropWhile l]
  by_cases hwnil : wordsOf l = []
  · rw [if_pos hwnil, hwnil]
    simp [joinWords]
  · rw [if_neg hwnil]
    have hune : l.dropWhile jsWs ≠ [] := by
      intro hu
      rw [← wordsOf_dropWhile l, hu, wordsOf_nil] at hwnil
      exact hwnil rfl
    have hhead : jsWs ((l.dropWhile jsWs).headD spCh) = false := by
      rcases jsWs_headD_dropWhile l with h | h
      · exact absurd h hune
      · exact h
    rw [if_neg (by rw [hhead]; simp)]

/-- C7: in whitespace-insensitive mode, two texts whose corresponding
lines differ only in interior whitespace runs or in leading and trailing
whitespace — that is, whose lines carry identical word sequences — yield
zero counts. -/
theorem computeDiffCounts_ws_insensitive (A B : List Char)
    (h : (splitToLines (normalizeEol A)).map wordsOf =
      (splitToLines (normalizeEol B)).map wordsOf) :
    computeDiffCounts A B true = ⟨0, 0⟩ := by
  apply computeDiffCounts_zero_of_norm_eq
  unfold normedLines
  have hnorm : ∀ s : List Char, maybeNormalizeWhitespace s true =
      joinWords (wordsOf s) := by
    intro s
    unfold maybeNormalizeWhitespace
    rw [if_neg (by simp)]
    exact normWs_eq_joinWords s
  calc (splitToLines (normalizeEol A)).map
        (fun s => maybeNormalizeWhitespace s true)
      = ((splitToLines (normalizeEol A)).map wordsOf).map joinWords := by
        rw [List.map_map]
        exact List.map_congr_left (fun s _ => hnorm s)
    _ = ((splitToLines (normalizeEol B)).map wordsOf).map joinWords := by
        rw [h]
    _ = (splitToLines (normalizeEol B)).map
        (fun s => maybeNormalizeWhitespace s true) := by
        rw [List.map_map]
        exact (List.map_congr_left (fun s _ => hnorm s)).symm

/-- Witness for C7: the two sample texts of the specification differ
only in an interior whitespace run and diff to zero counts. -/
theorem computeDiffCounts_ws_insensitive_witness :
    (splitToLines (normalizeEol ("a  b\n".toList))).map wordsOf =
      (splitToLines (normalizeEol ("a b\n".toList))).map wordsOf ∧
    computeDiffCounts ("a  b\n".toList) ("a b\n".toList) true = ⟨0, 0⟩ :=
  ⟨by decide, computeDiffCounts_ws_insensitive ("a  b\n".toList)
    ("a b\n".toList) (by decide)⟩

/-! ## Worker not-found behaviour (compareFile) -/

/-- Counterexample to C5 as stated: with the reference file absent but
the resolved target present, compareFile reports fileExists true (the
target's existence), not false. -/
theorem compareFile_missing_base_counterexample :
    (fun q => if q = ("w/r".toList) then some ("x".toList) else none)
      ("base".toList) = none ∧
    (compareFile
      (fun q => if q = ("w/r".toList) then some ("x".toList) else none)
      ⟨("base".toList), ("w".toList), ("r".toList), ("proj".toList),
        false, none⟩).fileExists = true := by
  decide

/-- C5 amended: whenever the reference or the resolved target is absent,
compareFile resolves with zero counts and zero changed lines; fileExists
is false whenever the resolved target is absent, while a missing
reference (with no preloaded content) reports the target's existence in
fileExists. -/
theorem compareFile_absent (fsys : List Char → Option (List Char))
    (p : DiffParamsIn)
    (h : fsys (joinPath p.compareWorkspaceFilePath p.compareRelativeFilePath)
        = none ∨
      (p.baseContent = none ∧ fsys p.currentFilePath = none)) :
    (compareFile fsys p).diffDetail = ⟨0, 0⟩ ∧
    (compareFile fsys p).diffLineCount = 0 ∧
    (fsys (joinPath p.compareWorkspaceFilePath p.compareRelativeFilePath)
        = none →
      (compareFile fsys p).fileExists = false) ∧
    ((p.baseContent = none ∧ fsys p.currentFilePath = none) →
      (compareFile fsys p).fileExists =
        (fsys (joinPath p.compareWorkspaceFilePath
          p.compareRelativeFilePath)).isSome) := by
  by_cases hb : p.baseContent = none ∧ fsys p.currentFilePath = none
  · have hbe : (p.baseContent.isSome ||
        (fsys p.currentFilePath).isSome) = false := by
      rw [hb.1, hb.2]
      rfl
    simp only [compareFile, hbe]
    simp only [Bool.not_false, if_true]
    refine ⟨?_, ?_, ?_, ?_⟩
    all_goals try trivial
    all_goals intro h'
    all_goals simp_all
  · have htgt : fsys (joinPath p.compareWorkspaceFilePath
        p.compareRelativeFilePath) = none := by
      rcases h with h | h
      · exact h
      · exact absurd h hb
    have hce : (fsys (joinPath p.compareWorkspaceFilePath
        p.compareRelativeFilePath)).isSome = false := by
      rw [htgt]
      rfl
    simp only [compareFile, hce]
    by_cases hbe : (p.baseContent.isSome ||
        (fsys p.currentFilePath).isSome) = true
    · rw [hbe]
      simp only [Bool.not_true, Bool.false_eq_true, if_false, Bool.not_false,
        if_true]
      refine ⟨?_, ?_, ?_, ?_⟩
      all_goals try trivial
      all_goals try exact fun hcontra => absurd hcontra hb
      all_goals intro h'
      all_goals simp_all
    · have hbe' : (p.baseContent.isSome ||
          (fsys p.currentFilePath).isSome) = false := by
        simpa using hbe
      rw [hbe']
      simp only [Bool.not_false, if_true]
      refine ⟨?_, ?_, ?_, ?_⟩
      all_goals try trivial
      all_goals try exact fun hcontra => absurd hcontra hb
      all_goals intro h'
      all_goals simp_all

/-- Witness for the amended C5 at a concrete input with both files
absent. -/
theorem compareFile_absent_witness :
    (compareFile (fun _ => none)
      ⟨("b".toList), ("w".toList), ("r".toList), ("p".toList),
        false, none⟩).diffDetail = ⟨0, 0⟩ ∧
    (compareFile (fun _ => none)
      ⟨("b".toList), ("w".toList), ("r".toList), ("p".toList),
        false, none⟩).diffLineCount = 0 ∧
    ((fun _ => (none : Option (List Char)))
        (joinPath ("w".toList) ("r".toList)) = none →
      (compareFile (fun _ => none)
        ⟨("b".toList), ("w".toList), ("r".toList), ("p".toList),
          false, none⟩).fileExists = false) ∧
    (((none : Option (List Char)) = none ∧
        (fun _ => (none : Option (List Char))) ("b".toList) = none) →
      (compareFile (fun _ => none)
        ⟨("b".toList), ("w".toList), ("r".toList), ("p".toList),
          false, none⟩).fileExists =
        ((fun _ => (none : Option (List Char)))
          (joinPath ("w".toList) ("r".toList))).isSome) :=
  compareFile_absent (fun _ => none)
    ⟨("b".toList), ("w".toList), ("r".toList), ("p".toList), false, none⟩
    (Or.inl rfl)

/-! ## Sorting and reference filtering (runDiff post-processing) -/

theorem diffResultLe_total (x y : DiffResult) :
    (diffResultLe x y || diffResultLe y x) = true := by
  obtain ⟨p1, d1, e1, c1, f1, w1⟩ := x
  obtain ⟨p2, d2, e2, c2, f2, w2⟩ := y
  simp only [diffResultLe, diffResultCmp]
  cases f1 <;> cases f2 <;> simp <;> omega

theorem diffResultLe_trans (x y z : DiffResult)
    (h1 : diffResultLe x y = true) (h2 : diffResultLe y z = true) :
    diffResultLe x z = true := by
  obtain ⟨p1, d1, e1, c1, f1, w1⟩ := x
  obtain ⟨p2, d2, e2, c2, f2, w2⟩ := y
  obtain ⟨p3, d3, e3, c3, f3, w3⟩ := z
  simp only [diffResultLe, diffResultCmp] at h1 h2 ⊢
  cases f1 <;> cases f2 <;> cases f3 <;> simp_all <;> omega

theorem diffResultLe_key (x y : DiffResult) (h : diffResultLe x y = true) :
    (y.fileExists = true → x.fileExists = true) ∧
    (x.fileExists = true → y.fileExists = true →
      x.diffLineCount ≤ y.diffLineCount) := by
  obtain ⟨p1, d1, e1, c1, f1, w1⟩ := x
  obtain ⟨p2, d2, e2, c2, f2, w2⟩ := y
  simp only [diffResultLe, diffResultCmp] at h
  cases f1 <;> cases f2 <;> simp_all

/-- C9: the published list is a stable sort of the computed results with
existing files strictly before missing ones and, among existing files,
ascending diffLineCount; filtering removes exactly the results whose
compare path equals the reference path under the platform path identity
(case-insensitive when ci is set, case-sensitive otherwise). -/
theorem postProcessResults_spec (ci : Bool) (ref : List Char)
    (l : List DiffResult) :
    (postProcessResults ci ref l).Pairwise (fun x y =>
      (y.fileExists = true → x.fileExists = true) ∧
      (x.fileExists = true → y.fileExists = true →
        x.diffLineCount ≤ y.diffLineCount)) ∧
    (postProcessResults ci ref l).Perm
      (l.filter fun r => !samePathCi ci r.compareFilePath ref) ∧
    (∀ r ∈ postProcessResults ci ref l,
      samePathCi ci r.compareFilePath ref = false) ∧
    (∀ x y : DiffResult, diffResultLe x y = true → [x, y] <+ l →
      [x, y] <+ sortResults l) := by
  have htr : ∀ a b c : DiffResult,
      diffResultLe a b → diffResultLe b c → diffResultLe a c :=
    fun a b c h1 h2 => diffResultLe_trans a b c h1 h2
  have hto : ∀ a b : DiffResult, diffResultLe a b || diffResultLe b a :=
    fun a b => diffResultLe_total a b
  refine ⟨?_, ?_, ?_, ?_⟩
  · have hs : (sortResults l).Pairwise (fun a b => diffResultLe a b) :=
      List.sorted_mergeSort htr hto l
    have hs2 : (sortResults l).Pairwise (fun x y =>
        (y.fileExists = true → x.fileExists = true) ∧
        (x.fileExists = true → y.fileExists = true →
          x.diffLineCount ≤ y.diffLineCount)) :=
      hs.imp (fun h => diffResultLe_key _ _ h)
    exact List.Pairwise.sublist (List.filter_sublist _) hs2
  · exact (List.mergeSort_perm l diffResultLe).filter _
  · intro r hr
    have h := List.of_mem_filter hr
    simpa using h
  · intro x y hle hsub
    exact List.pair_sublist_mergeSort htr hto hle hsub

/-! ## Staleness guard (runDiff publication) -/

/-- C1 fails on the error path: after a newer run supersedes run 1 and
run 2 publishes its results, run 1's catch block still replaces the
published view with the empty state, because the refresh call in the
catch block is not guarded by the run-identifier check (only the error
message is). The success path is correctly guarded, as the final
conjunct shows. -/
theorem runDiff_stale_error_clobbers_view :
    execTrace ⟨0, ⟨none, []⟩⟩
      [RunEvent.startRun, RunEvent.startRun,
       RunEvent.publishSuccess 2 (some ("f".toList))
         [⟨("p".toList), 1, ⟨1, 0⟩, ("c".toList), true, ("w".toList)⟩]] =
      ⟨2, ⟨some ("f".toList),
        [⟨("p".toList), 1, ⟨1, 0⟩, ("c".toList), true, ("w".toList)⟩]⟩⟩ ∧
    (1 : Nat) ≠ 2 ∧
    execTrace ⟨0, ⟨none, []⟩⟩
      [RunEvent.startRun, RunEvent.startRun,
       RunEvent.publishSuccess 2 (some ("f".toList))
         [⟨("p".toList), 1, ⟨1, 0⟩, ("c".toList), true, ("w".toList)⟩],
       RunEvent.publishError 1] = ⟨2, ⟨none, []⟩⟩ ∧
    execTrace ⟨0, ⟨none, []⟩⟩
      [RunEvent.startRun, RunEvent.startRun,
       RunEvent.publishSuccess 2 (some ("f".toList))
         [⟨("p".toList), 1, ⟨1, 0⟩, ("c".toList), true, ("w".toList)⟩],
       RunEvent.publishSuccess 1 none []] =
      ⟨2, ⟨some ("f".toList),
        [⟨("p".toList), 1, ⟨1, 0⟩, ("c".toList), true, ("w".toList)⟩]⟩⟩ := by
  decide

/-! ## Cache lemmas -/

theorem mapGet_delete_self (m : CacheState) (k : CacheKey) :
    mapGet (mapDelete m k) k = none := by
  induction m with
  | nil => rfl
  | cons p rest ih =>
    obtain ⟨k1, e⟩ := p
    by_cases h : k1 = k
    · simpa [mapDelete, List.filter_cons, h] using ih
    · simpa [mapDelete, List.filter_cons, h, mapGet] using ih

theorem mapSet_absent (m : CacheState) (k : CacheKey) (e : CacheEntry)
    (h : mapGet m k = none) : mapSet m k e = m ++ [(k, e)] := by
  simp [mapSet, h]

theorem evictIfNeeded_noop (maxEntries fuel : Nat) (m : CacheState)
    (h : m.length ≤ maxEntries) :
    DiffCache.evictIfNeeded maxEntries fuel m = m := by
  cases fuel with
  | zero => rfl
  | succ f =>
    simp only [DiffCache.evictIfNeeded]
    rw [if_neg (Nat.not_lt.mpr h)]

theorem evictIfNeeded_length (maxEntries : Nat) :
    ∀ (fuel : Nat) (m : CacheState), m.length ≤ fuel + maxEntries →
      (DiffCache.evictIfNeeded maxEntries fuel m).length ≤ maxEntries := by
  intro fuel
  induction fuel with
  | zero =>
    intro m h
    simpa [DiffCache.evictIfNeeded] using h
  | succ f ih =>
    intro m h
    simp only [DiffCache.evictIfNeeded]
    by_cases hlt : maxEntries < m.length
    · rw [if_pos hlt]
      cases m with
      | nil => simp at hlt
      | cons p rest =>
        refine ih rest ?_
        simp only [List.length_cons] at h
        omega
    · rw [if_neg hlt]
      exact Nat.not_lt.mp hlt

/-! ## Reverse cache lookup (C2) -/

/-- Counterexample to C2 as stated: on a reversed hit the synthesized
result's label (projectName) and existence flag (fileExists) are copied
from the cached entry, not taken from the caller's context — two caches
differing only in those cached fields yield different results for the
same request. -/
theorem diffCache_reverse_fields_counterexample :
    mapGet (exCache ("p1".toList) true) (makeCacheKey false exParts) =
      none ∧
    mapGet (exCache ("p2".toList) false) (makeCacheKey false exParts) =
      none ∧
    (DiffCache.get false (exCache ("p1".toList) true) exParts).1 =
      some ⟨("p1".toList), 5, ⟨3, 2⟩, ("b".toList), true, ("w".toList)⟩ ∧
    (DiffCache.get false (exCache ("p2".toList) false) exParts).1 =
      some ⟨("p2".toList), 5, ⟨3, 2⟩, ("b".toList), false, ("w".toList)⟩ ∧
    (DiffCache.get false (exCache ("p1".toList) true) exParts).1 ≠
      (DiffCache.get false (exCache ("p2".toList) false) exParts).1 := by
  decide

/-- C2 amended: on a direct miss with a reversed hit, get synthesizes a
result whose added and removed counts are the cached entry's counts
swapped and whose compare path is rewritten to the caller's requested
compare path, while the label, line-count total, existence flag and
workspace path are copied from the cached entry; the hit entry is
promoted to most recently used. -/
theorem diffCache_reverse_get (ci : Bool) (m : CacheState)
    (parts : DiffCacheKeyParts) (e : CacheEntry)
    (hmiss : mapGet m (makeCacheKey ci parts) = none)
    (hhit : mapGet m (makeReversedKey ci parts) = some e) :
    (DiffCache.get ci m parts).1 =
      some ⟨e.result.projectName, e.result.diffLineCount,
        ⟨e.result.diffDetail.removed, e.result.diffDetail.added⟩,
        parts.comparePath, e.result.fileExists,
        e.result.compareWorkspaceFilePath⟩ ∧
    (DiffCache.get ci m parts).2 =
      mapDelete m (makeReversedKey ci parts) ++
        [(makeReversedKey ci parts, e)] := by
  simp only [DiffCache.get, hmiss, hhit]
  exact ⟨trivial, mapSet_absent _ _ _ (mapGet_delete_self m _)⟩

/-- Witness for the amended C2 at a concrete one-entry cache: the cached
counts added 2 / removed 3 come back as added 3 / removed 2, with the
compare path rewritten and the cached label and existence flag kept. -/
theorem diffCache_reverse_get_witness :
    (DiffCache.get false (exCache ("p1".toList) true) exParts).1 =
      some ⟨("p1".toList), 5, ⟨3, 2⟩, ("b".toList), true, ("w".toList)⟩ := by
  have h := diffCache_reverse_get false (exCache ("p1".toList) true) exParts
    ⟨makeCacheKey false exPartsRev, exPartsRev, exResult ("p1".toList) true⟩
    (by decide) (by decide)
  simpa [exResult] using h.1

/-! ## LRU capacity and eviction order (C8) -/

/-- C8: every set leaves at most maxEntries entries; a direct get
promotes the hit entry to the end of the iteration order; and in the
concrete capacity-2 scenario, inserting a third key after a get of the
oldest entry evicts the other (least recently accessed) entry, while
without the get the oldest insertion is the one evicted. -/
theorem diffCache_lru (ci : Bool) (maxEntries : Nat) (m : CacheState)
    (p : DiffCacheKeyParts) (r : DiffResult) (parts : DiffCacheKeyParts)
    (e : CacheEntry)
    (hhit : mapGet m (makeCacheKey ci parts) = some e) :
    (DiffCache.set ci maxEntries m p r).length ≤ maxEntries ∧
    (DiffCache.get ci m parts).2 =
      mapDelete m (makeCacheKey ci parts) ++
        [(makeCacheKey ci parts, e)] ∧
    lruSt1.length = 2 ∧
    (mapGet lruSt1
      (makeCacheKey false (qp ("a".toList) ("x".toList)))).isSome = true ∧
    (mapGet lruSt3
      (makeCacheKey false (qp ("a".toList) ("x".toList)))).isSome = true ∧
    mapGet lruSt3 (makeCacheKey false (qp ("b".toList) ("y".toList))) =
      none ∧
    lruSt3.length = 2 ∧
    mapGet lruSt3noGet
      (makeCacheKey false (qp ("a".toList) ("x".toList))) = none ∧
    (mapGet lruSt3noGet
      (makeCacheKey false (qp ("b".toList) ("y".toList)))).isSome = true ∧
    lruSt3noGet.length = 2 := by
  refine ⟨?_, ?_, ?_⟩
  · simp only [DiffCache.set]
    exact evictIfNeeded_length maxEntries _ _ (Nat.le_add_right _ _)
  · simp only [DiffCache.get, hhit]
    exact mapSet_absent _ _ _ (mapGet_delete_self m _)
  · decide

/-- Witness for C8 at the concrete capacity-2 scenario. -/
theorem diffCache_lru_witness :
    (DiffCache.set false 2 lruSt1 (qp ("c".toList) ("z".toList))
      qRes).length ≤ 2 ∧
    (DiffCache.get false lruSt1 (qp ("a".toList) ("x".toList))).2 =
      mapDelete lruSt1
          (makeCacheKey false (qp ("a".toList) ("x".toList))) ++
        [(makeCacheKey false (qp ("a".toList) ("x".toList)),
          ⟨makeCacheKey false (qp ("a".toList) ("x".toList)),
            qp ("a".toList) ("x".toList), qRes⟩)] := by
  have h := diffCache_lru false 2 lruSt1 (qp ("c".toList) ("z".toList)) qRes
    (qp ("a".toList) ("x".toList))
    ⟨makeCacheKey false (qp ("a".toList) ("x".toList)),
      qp ("a".toList) ("x".toList), qRes⟩ (by decide)
  exact ⟨h.1, h.2.1⟩

/-! ## Set does not refresh recency (C10) -/

/-- C10: a set whose key is already present overwrites the stored entry
in place, leaving the iteration (recency) order unchanged; in the
concrete capacity-2 scenario, the entry freshly re-written by set keeps
its old position and is still the one evicted by the next insertion. -/
theorem diffCache_set_no_promote (ci : Bool) (maxEntries : Nat)
    (m : CacheState) (p : DiffCacheKeyParts) (r : DiffResult)
    (hp : (mapGet m (makeCacheKey ci p)).isSome = true)
    (hlen : m.length ≤ maxEntries) :
    DiffCache.set ci maxEntries m p r =
      m.map (fun q => if q.1 = makeCacheKey ci p
        then (makeCacheKey ci p, ⟨makeCacheKey ci p, p, r⟩) else q) ∧
    (DiffCache.set ci maxEntries m p r).map Prod.fst = m.map Prod.fst ∧
    owSt2.map Prod.fst = lruSt1.map Prod.fst ∧
    mapGet owSt2 (makeCacheKey false (qp ("a".toList) ("x".toList))) =
      some ⟨makeCacheKey false (qp ("a".toList) ("x".toList)),
        qp ("a".toList) ("x".toList), qRes2⟩ ∧
    mapGet owSt3 (makeCacheKey false (qp ("a".toList) ("x".toList))) =
      none ∧
    (mapGet owSt3
      (makeCacheKey false (qp ("b".toList) ("y".toList)))).isSome = true ∧
    owSt3.length = 2 := by
  have hset : DiffCache.set ci maxEntries m p r =
      m.map (fun q => if q.1 = makeCacheKey ci p
        then (makeCacheKey ci p, ⟨makeCacheKey ci p, p, r⟩) else q) := by
    simp only [DiffCache.set, mapSet, hp, if_true]
    exact evictIfNeeded_noop maxEntries _ _ (by simpa using hlen)
  refine ⟨hset, ?_, ?_⟩
  · rw [hset, List.map_map]
    refine List.map_congr_left ?_
    intro q hq
    by_cases h : q.1 = makeCacheKey ci p
    · simp [Function.comp, h]
    · simp [Function.comp, h]
  · decide

/-- Witness for C10: overwriting the oldest entry of the concrete
two-entry cache keeps it in place with the new value. -/
theorem diffCache_set_no_promote_witness :
    DiffCache.set false 2 lruSt1 (qp ("a".toList) ("x".toList)) qRes2 =
      lruSt1.map (fun q =>
        if q.1 = makeCacheKey false (qp ("a".toList) ("x".toList))
        then (makeCacheKey false (qp ("a".toList) ("x".toList)),
          ⟨makeCacheKey false (qp ("a".toList) ("x".toList)),
            qp ("a".toList) ("x".toList), qRes2⟩) else q) := by
  exact (diffCache_set_no_promote false 2 lruSt1
    (qp ("a".toList) ("x".toList)) qRes2 (by decide) (by decide)).1
